import Mathlib

/-!
Verification development for the tennis feature-engineering pipeline
(`src/features/engineering.py`, `src/features/rolling.py`,
`src/data/preprocess.py`, `src/config.py`).

The embedding is a shallow one: pandas DataFrames become Lean lists of
records, Python dicts become association lists, floating point means
become exact rational means, and the single chronological pass of
`add_features` becomes a fold over the sorted record list.  Dates are
modelled by the `yyyymmdd` natural number they are parsed from
(`pd.to_datetime` with a fixed format is strictly monotone on valid
dates, so ordering by the raw number is ordering by the parsed date).

Two different pandas sorts occur.  The event sort of
`compute_rolling_features` is a multi-column `sort_values`, which
pandas performs with a stable lexsort, so it is embedded as a stable
sort on the `(player, date, match_index)` key.  The single-column
`df.sort_values("tourney_date")` of `add_features`, however, uses the
default `kind='quicksort'`, which is not stable: its contract
guarantees only some permutation of the rows that is non-decreasing in
the date, and nothing about the relative order of same-date rows.  It
is therefore embedded as the input/output relation `DateSorted`, and
facts about the pipeline are proved for every admissible sorted frame.
`sortRows` — a stable date sort — is kept as one concrete admissible
outcome, used by claims whose content does not depend on how date ties
are broken.
-/

/-- One preprocessed match row, the output schema of
`preprocess.preprocess_data` that `add_features` consumes.  `surface`
is `none` when the raw cell is missing (pandas `NaN`); `target = 1`
means player 1 won. -/
structure MatchRow where
  tourney_date : ℕ
  surface : Option String
  p1_name : String
  p2_name : String
  target : ℕ
  p1_games_won : ℕ
  p1_games_lost : ℕ
  p1_sets_won : ℕ
  p1_sets_lost : ℕ
  p2_games_won : ℕ
  p2_games_lost : ℕ
  p2_sets_won : ℕ
  p2_sets_lost : ℕ
deriving Repr, DecidableEq, Inhabited

/-- `config.DEFAULT_WIN_PCT` (= 0.5). -/
def DEFAULT_WIN_PCT : ℚ := 1 / 2

/-- `config.RECENT_FORM_WINDOWS` (= [5, 10]). -/
def RECENT_FORM_WINDOWS : List ℕ := [5, 10]

/-- The surface-history dict of `add_features`:
`{ player: { surface: [wins, total] } }`, flattened to an association
list keyed by the (player, surface) pair.  The two counters are the
`[wins, total]` list cells. -/
abbrev SurfaceHistory := List ((String × String) × (ℕ × ℕ))

/-- Dict lookup for the flattened surface history. -/
def surfLookup (h : SurfaceHistory) (k : String × String) : Option (ℕ × ℕ) :=
  match h.find? (fun e => e.1 = k) with
  | some e => some e.2
  | none => none

/-- `get_surface_win_pct` from `engineering.py`: the historical win
percentage of `player` on `surface`, `DEFAULT_WIN_PCT` when the surface
is `"Unknown"`, the entry is absent, or its total is zero. -/
def get_surface_win_pct (h : SurfaceHistory) (player surface : String) : ℚ :=
  if surface = "Unknown" then DEFAULT_WIN_PCT
  else
    match surfLookup h (player, surface) with
    | some (wins, total) =>
        if total > 0 then (wins : ℚ) / (total : ℚ) else DEFAULT_WIN_PCT
    | none => DEFAULT_WIN_PCT

/-- `update_surface_history` from `engineering.py`: create the
(player, surface) entry with `[0, 0]` if absent, then increment the
total and, when `won`, the win counter. -/
def update_surface_history (h : SurfaceHistory) (player surface : String)
    (won : Bool) : SurfaceHistory :=
  match h with
  | [] => [((player, surface), (if won then 1 else 0, 1))]
  | e :: rest =>
      if e.1 = (player, surface) then
        (e.1, (e.2.1 + (if won then 1 else 0), e.2.2 + 1)) :: rest
      else
        e :: update_surface_history rest player surface won

/-- The head-to-head dict of `add_features`:
`{ tuple(sorted([p1, p2])): [first_wins, second_wins] }`. -/
abbrev H2HHistory := List ((String × String) × (ℕ × ℕ))

/-- Dict lookup for the head-to-head history. -/
def h2hLookup (h : H2HHistory) (k : String × String) : Option (ℕ × ℕ) :=
  match h.find? (fun e => e.1 = k) with
  | some e => some e.2
  | none => none

/-- `tuple(sorted([p1, p2]))`: the canonical unordered-pair key, with
Python's lexicographic string order modelled by Lean's `String` order
(both compare code points). -/
def pairKey (p1 p2 : String) : String × String :=
  if p1 ≤ p2 then (p1, p2) else (p2, p1)

/-- Increment slot 0 or slot 1 of a head-to-head entry, creating the
entry as `[0, 0]` first when absent (lines 89–98 of
`engineering.py`). -/
def h2hBump (h : H2HHistory) (k : String × String) (idx : ℕ) : H2HHistory :=
  match h with
  | [] => [(k, (if idx = 0 then 1 else 0, if idx = 0 then 0 else 1))]
  | e :: rest =>
      if e.1 = k then
        (e.1, (e.2.1 + (if idx = 0 then 1 else 0),
               e.2.2 + (if idx = 0 then 0 else 1))) :: rest
      else
        e :: h2hBump rest k idx

/-- The mutable state of the `add_features` loop: the two history
dicts. -/
structure StreamState where
  surf : SurfaceHistory
  h2h : H2HHistory
deriving Repr, DecidableEq

/-- The empty initial state (`surface_history = {}`, `h2h_history = {}`). -/
def initState : StreamState := ⟨[], []⟩

/-- The per-row feature triple appended to the three Python lists:
(`p1_surface_pct`, `p2_surface_pct`, `h2h_diff`). -/
abbrev StreamFeats := ℚ × ℚ × ℤ

/-- The `surface` read of the loop: `row["surface"] if pd.notna(...)
else "Unknown"`. -/
def surfaceOf (row : MatchRow) : String :=
  match row.surface with
  | some s => s
  | none => "Unknown"

/-- The `winner_index` computation of the loop body (lines 92–96 of
`engineering.py`): slot 0 iff player 1 won and is the canonical first,
or player 2 won and player 1 is not the canonical first. -/
def winnerIndex (row : MatchRow) : ℕ :=
  let p1_won : Bool := row.target = 1
  let pair := pairKey row.p1_name row.p2_name
  if (p1_won ∧ row.p1_name = pair.1) ∨ (¬ p1_won ∧ row.p1_name ≠ pair.1)
  then 0 else 1

/-- One iteration of the `add_features` loop body: read both surface
percentages and the head-to-head differential from the current state,
then update the surface history for both players and bump the winner's
canonical head-to-head slot. -/
def stepRow (st : StreamState) (row : MatchRow) : StreamFeats × StreamState :=
  let p1 := row.p1_name
  let p2 := row.p2_name
  let surface := surfaceOf row
  let p1_won : Bool := row.target = 1
  let p1pct := get_surface_win_pct st.surf p1 surface
  let p2pct := get_surface_win_pct st.surf p2 surface
  let pair := pairKey p1 p2
  let diff : ℤ :=
    match h2hLookup st.h2h pair with
    | some (wins_a, wins_b) =>
        if p1 = pair.1 then (wins_a : ℤ) - wins_b else (wins_b : ℤ) - wins_a
    | none => 0
  let surf1 := update_surface_history st.surf p1 surface p1_won
  let surf2 := update_surface_history surf1 p2 surface (!p1_won)
  let h2h' := h2hBump st.h2h pair (winnerIndex row)
  ((p1pct, p2pct, diff), ⟨surf2, h2h'⟩)

/-- Run the `add_features` loop from a given state over a list of rows,
returning the per-row feature triples in order together with the final
state. -/
def processAux (st : StreamState) : List MatchRow → List StreamFeats × StreamState
  | [] => ([], st)
  | row :: rest =>
      let (f, st') := stepRow st row
      let (fs, stFinal) := processAux st' rest
      (f :: fs, stFinal)

/-- The whole streaming pass of `add_features`, from empty histories. -/
def processAll (rows : List MatchRow) : List StreamFeats × StreamState :=
  processAux initState rows

/-- One row of the player-centric frame built by
`compute_rolling_features`: a (match, role) pair carrying that side's
outcome and per-match tallies.  `won` is `target` for the player-1 role
and `1 - target` for the player-2 role; `match_index` is the source
row's position in the frame handed to `compute_rolling_features` (the
frame's index). -/
structure PlayerEvent where
  date : ℕ
  player : String
  won : ℚ
  games_won : ℚ
  games_lost : ℚ
  sets_won : ℚ
  sets_lost : ℚ
  match_index : ℕ
  side1 : Bool
deriving Repr, DecidableEq

/-- The player-1 perspective row (`df_p1`) of a match at index `i`. -/
def p1Event (i : ℕ) (row : MatchRow) : PlayerEvent :=
  { date := row.tourney_date, player := row.p1_name,
    won := (row.target : ℚ),
    games_won := (row.p1_games_won : ℚ), games_lost := (row.p1_games_lost : ℚ),
    sets_won := (row.p1_sets_won : ℚ), sets_lost := (row.p1_sets_lost : ℚ),
    match_index := i, side1 := true }

/-- The player-2 perspective row (`df_p2`) of a match at index `i`;
`won_inverse = 1 - target`. -/
def p2Event (i : ℕ) (row : MatchRow) : PlayerEvent :=
  { date := row.tourney_date, player := row.p2_name,
    won := 1 - (row.target : ℚ),
    games_won := (row.p2_games_won : ℚ), games_lost := (row.p2_games_lost : ℚ),
    sets_won := (row.p2_sets_won : ℚ), sets_lost := (row.p2_sets_lost : ℚ),
    match_index := i, side1 := false }

/-- `pd.concat([df_p1, df_p2])`: all player-1 perspective rows followed
by all player-2 perspective rows, each tagged with its source row
index. -/
def mkEvents (rows : List MatchRow) : List PlayerEvent :=
  (rows.enum.map fun p => p1Event p.1 p.2) ++
    (rows.enum.map fun p => p2Event p.1 p.2)

/-- Insert `x` into a list sorted by `le`, before the first element it
is `le`-below-or-equal to; used to model a stable sort. -/
def insertLe (le : α → α → Bool) (x : α) : List α → List α
  | [] => [x]
  | y :: ys => if le x y then x :: y :: ys else y :: insertLe le x ys

/-- Stable insertion sort: an element is placed before every
originally-later element with an equal key, so ties keep their original
relative order, as in a pandas stable sort. -/
def stableSort (le : α → α → Bool) : List α → List α
  | [] => []
  | x :: xs => insertLe le x (stableSort le xs)

/-- The `('player', 'date', 'match_index')` lexicographic key order of
`player_df.sort_values` in `compute_rolling_features`. -/
def eventLe (a b : PlayerEvent) : Bool :=
  if a.player = b.player then
    if a.date = b.date then a.match_index ≤ b.match_index
    else a.date ≤ b.date
  else a.player ≤ b.player

/-- `player_df.sort_values(['player', 'date', 'match_index'])`. -/
def sortEvents (es : List PlayerEvent) : List PlayerEvent :=
  stableSort eventLe es

/-- The five rolling metrics of `compute_rolling_features`. -/
inductive Metric where
  | won | games_won | games_lost | sets_won | sets_lost
deriving Repr, DecidableEq

/-- Read a metric's value off a player event. -/
def Metric.get : Metric → PlayerEvent → ℚ
  | .won, e => e.won
  | .games_won, e => e.games_won
  | .games_lost, e => e.games_lost
  | .sets_won, e => e.sets_won
  | .sets_lost, e => e.sets_lost

/-- The metric values of the events strictly before position `k` of the
sorted player frame that belong to `e`'s player — the values
`shift(1)` exposes to position `k` inside its group. -/
def priorVals (s : List PlayerEvent) (k : ℕ) (e : PlayerEvent) (m : Metric) :
    List ℚ :=
  ((s.take k).filter fun x => x.player = e.player).map m.get

/-- The raw (pre-fill) rolling value of the event at position `k` of
the sorted frame `s`: `shift(1).rolling(window, min_periods=1).mean()`
is the mean of the last up-to-`window` strictly prior same-player
values, and `NaN` (here `none`) when there is no prior value. -/
def rollingRawAt (s : List PlayerEvent) (k : ℕ) (e : PlayerEvent) (m : Metric)
    (window : ℕ) : Option ℚ :=
  let prior := priorVals s k e m
  let w := prior.drop (prior.length - window)
  if w.length = 0 then none else some (w.sum / (w.length : ℚ))

/-- Walk the sorted frame recording each event's raw rolling value at
its position. -/
def rollingColAux (s : List PlayerEvent) (m : Metric) (window : ℕ) :
    ℕ → List PlayerEvent → List (PlayerEvent × Option ℚ)
  | _, [] => []
  | k, e :: rest =>
      (e, rollingRawAt s k e m window) :: rollingColAux s m window (k + 1) rest

/-- The raw rolling column over the sorted player frame. -/
def rollingCol (es : List PlayerEvent) (m : Metric) (window : ℕ) :
    List (PlayerEvent × Option ℚ) :=
  rollingColAux (sortEvents es) m window 0 (sortEvents es)

/-- The defined (non-`NaN`) entries of a rolling column. -/
def definedVals (col : List (PlayerEvent × Option ℚ)) : List ℚ :=
  col.filterMap Prod.snd

/-- `player_df[col].mean()`: the mean of the column's non-`NaN` values
(pandas skips `NaN`), itself `NaN` when every value is `NaN`. -/
def colMean (col : List (PlayerEvent × Option ℚ)) : Option ℚ :=
  let v := definedVals col
  if v.length = 0 then none else some (v.sum / (v.length : ℚ))

/-- One `fillna` cell: a present value is kept, a `NaN` cell becomes
the fill value (still `NaN` if the fill value is `NaN`). -/
def fillCell (fill : Option ℚ) (o : Option ℚ) : Option ℚ :=
  match o with
  | some v => some v
  | none => fill

/-- `fillna`: replace each `NaN` cell by the fill value. -/
def fillCol (fill : Option ℚ) (col : List (PlayerEvent × Option ℚ)) :
    List (PlayerEvent × Option ℚ) :=
  col.map fun p => (p.1, fillCell fill p.2)

/-- A finished rolling column: win-rate columns are `NaN`-filled with
`DEFAULT_WIN_PCT`, the four magnitude columns with the column's own
population mean (lines 94–102 of `rolling.py`). -/
def filledCol (es : List PlayerEvent) (m : Metric) (window : ℕ) :
    List (PlayerEvent × Option ℚ) :=
  let col := rollingCol es m window
  match m with
  | .won => fillCol (some DEFAULT_WIN_PCT) col
  | _ => fillCol (colMean col) col

/-- Pull one role's rolling feature back onto its source row: the
`set_index('match_index')` / `join` step keyed by (row index, role). -/
def featLookup (col : List (PlayerEvent × Option ℚ)) (i : ℕ) (side1 : Bool) :
    Option ℚ :=
  match col.find? (fun p => p.1.match_index = i ∧ p.1.side1 = side1) with
  | some p => p.2
  | none => none

/-- The rolling feature column `p{1,2}_recent_*_{window}` of
`compute_rolling_features`, read at row `i` for the given role. -/
def recentFeature (rows : List MatchRow) (side1 : Bool) (m : Metric)
    (window : ℕ) (i : ℕ) : Option ℚ :=
  featLookup (filledCol (mkEvents rows) m window) i side1

/-- The contract of `df.sort_values("tourney_date").reset_index(drop=True)`
at the top of `add_features`: a single-column `sort_values` with the
default `kind='quicksort'` returns some permutation of the rows that is
non-decreasing in `tourney_date`.  The quicksort is not stable, so no
property of the relative order of same-date rows is part of the
contract; the faithful embedding of the call is this input/output
relation, and `out` ranges over every admissible sorted frame. -/
def DateSorted (df out : List MatchRow) : Prop :=
  out.Perm df ∧ out.Pairwise fun a b => a.tourney_date ≤ b.tourney_date

/-- The `tourney_date` key order on index-annotated rows, used to build
one concrete admissible `sort_values` outcome. -/
def rowLe (a b : ℕ × MatchRow) : Bool :=
  a.2.tourney_date ≤ b.2.tourney_date

/-- An index-annotated stable date sort: the admissible outcome in
which same-date rows keep their input order.  This is one possible
result of the unstable `df.sort_values("tourney_date")`, not a
guarantee of it. -/
def sortRowsIdx (rows : List MatchRow) : List (ℕ × MatchRow) :=
  stableSort rowLe rows.enum

/-- One admissible result of
`df.sort_values("tourney_date").reset_index(drop=True)`: the stable
(input-order tie-breaking) date sort.  Claims stated over `sortRows`
hold of this realized order; claims about tie-breaking itself are
stated over the `DateSorted` relation instead. -/
def sortRows (rows : List MatchRow) : List MatchRow :=
  (sortRowsIdx rows).map Prod.snd

/-- The three streaming feature columns of `add_features`
(`p1_surface_win_pct`, `p2_surface_win_pct`, `h2h_diff`), one triple
per row of the date-sorted frame, read off the `sortRows` realized
order (claims sensitive to the tie order are stated over `DateSorted`
instead). -/
def add_features_stream (df : List MatchRow) : List StreamFeats :=
  (processAll (sortRows df)).1

/-- The `surface_history` dict returned by `add_features`. -/
def add_features_surf (df : List MatchRow) : SurfaceHistory :=
  (processAll (sortRows df)).2.surf

/-- The `h2h_history` dict returned by `add_features`. -/
def add_features_h2h (df : List MatchRow) : H2HHistory :=
  (processAll (sortRows df)).2.h2h

/-- A rolling feature cell of the frame returned by `add_features`:
row `i` of the date-sorted frame, one role, one metric, one window. -/
def add_features_recent (df : List MatchRow) (side1 : Bool) (m : Metric)
    (window : ℕ) (i : ℕ) : Option ℚ :=
  recentFeature (sortRows df) side1 m window i

/-- The raw (pre-fill) rolling feature cell: `none` exactly where the
frame still holds `NaN` before the two `fillna` steps. -/
def recentRaw (rows : List MatchRow) (side1 : Bool) (m : Metric)
    (window : ℕ) (i : ℕ) : Option ℚ :=
  featLookup (rollingCol (mkEvents rows) m window) i side1

/-- The match winner's name: player 1 on `target = 1`, else player 2. -/
def winnerName (row : MatchRow) : String :=
  if row.target = 1 then row.p1_name else row.p2_name

/-- How many matches of `l` were contested between `a` and `b` and won
by `a`. -/
def winsAgainst (l : List MatchRow) (a b : String) : ℕ :=
  (l.filter fun row =>
    pairKey row.p1_name row.p2_name = pairKey a b ∧ winnerName row = a).length

/-- How many matches of `l` are contested between the canonical pair
`k`. -/
def pairCount (l : List MatchRow) (k : String × String) : ℕ :=
  (l.filter fun row => pairKey row.p1_name row.p2_name = k).length

/-- How many matches of `l` between the canonical pair `k` were won by
`a`. -/
def pairWins (l : List MatchRow) (k : String × String) (a : String) : ℕ :=
  (l.filter fun row =>
    pairKey row.p1_name row.p2_name = k ∧ winnerName row = a).length

/-- Sum of the `total` counters over all (player, surface) entries. -/
def surfTotalSum (h : SurfaceHistory) : ℕ :=
  (h.map fun e => e.2.2).sum

/-- Sum of `wins_first + wins_second` over all pair entries. -/
def h2hWinSum (h : H2HHistory) : ℕ :=
  (h.map fun e => e.2.1 + e.2.2).sum

/-- A surface-history state reached by a sequence of
`update_surface_history` calls from the empty dict. -/
def surfReach (ops : List (String × String × Bool)) : SurfaceHistory :=
  ops.foldl (fun h op => update_surface_history h op.1 op.2.1 op.2.2) []

/-- Strict chronological precedence on index-annotated rows: earlier
date, or the same date and an earlier original position. -/
def rIdxLt (a b : ℕ × MatchRow) : Prop :=
  a.2.tourney_date < b.2.tourney_date ∨
    (a.2.tourney_date = b.2.tourney_date ∧ a.1 < b.1)

/-- Three matches between the same two players on consecutive days,
used to exhibit the cold-start population-mean fill. -/
def leakDF : List MatchRow :=
  [{ tourney_date := 20230101, surface := some "Hard", p1_name := "A",
     p2_name := "B", target := 1,
     p1_games_won := 10, p1_games_lost := 4, p1_sets_won := 2, p1_sets_lost := 0,
     p2_games_won := 4, p2_games_lost := 10, p2_sets_won := 0, p2_sets_lost := 2 },
   { tourney_date := 20230102, surface := some "Hard", p1_name := "A",
     p2_name := "B", target := 0,
     p1_games_won := 2, p1_games_lost := 6, p1_sets_won := 0, p1_sets_lost := 2,
     p2_games_won := 6, p2_games_lost := 2, p2_sets_won := 2, p2_sets_lost := 0 },
   { tourney_date := 20230103, surface := some "Hard", p1_name := "A",
     p2_name := "B", target := 1,
     p1_games_won := 1, p1_games_lost := 1, p1_sets_won := 1, p1_sets_lost := 0,
     p2_games_won := 1, p2_games_lost := 1, p2_sets_won := 0, p2_sets_lost := 1 }]

/-- Two distinct matches of the same pair on the same tournament date
(every match of a tournament shares its start date): a date tie. -/
def tieDF : List MatchRow :=
  [{ tourney_date := 20230101, surface := some "Hard", p1_name := "A",
     p2_name := "B", target := 1,
     p1_games_won := 10, p1_games_lost := 4, p1_sets_won := 2, p1_sets_lost := 0,
     p2_games_won := 4, p2_games_lost := 10, p2_sets_won := 0, p2_sets_lost := 2 },
   { tourney_date := 20230101, surface := some "Hard", p1_name := "A",
     p2_name := "B", target := 1,
     p1_games_won := 2, p1_games_lost := 6, p1_sets_won := 2, p1_sets_lost := 1,
     p2_games_won := 6, p2_games_lost := 2, p2_sets_won := 1, p2_sets_lost := 2 }]

/-- The other admissible `sort_values` outcome for `tieDF`: the
same-date rows swapped. -/
def tieSwap : List MatchRow :=
  [{ tourney_date := 20230101, surface := some "Hard", p1_name := "A",
     p2_name := "B", target := 1,
     p1_games_won := 2, p1_games_lost := 6, p1_sets_won := 2, p1_sets_lost := 1,
     p2_games_won := 6, p2_games_lost := 2, p2_sets_won := 1, p2_sets_lost := 2 },
   { tourney_date := 20230101, surface := some "Hard", p1_name := "A",
     p2_name := "B", target := 1,
     p1_games_won := 10, p1_games_lost := 4, p1_sets_won := 2, p1_sets_lost := 0,
     p2_games_won := 4, p2_games_lost := 10, p2_sets_won := 0, p2_sets_lost := 2 }]

/-- Character-list test for "does the list start with `sub`". -/
def subAtHead : List Char → List Char → Bool
  | [], _ => true
  | _ :: _, [] => false
  | a :: as, b :: bs => a = b && subAtHead as bs

/-- Python's `sub in s` substring containment on character lists. -/
def hasSub (sub : List Char) : List Char → Bool
  | [] => sub.isEmpty
  | c :: cs => subAtHead sub (c :: cs) || hasSub sub cs

/-- Split a character list at every separator position, keeping empty
chunks, as Python's `s.split(sep)` does for an explicit separator. -/
def splitWhen (p : Char → Bool) : List Char → List (List Char)
  | [] => [[]]
  | x :: xs =>
      match splitWhen p xs with
      | [] => [[]]
      | g :: gs => if p x then [] :: g :: gs else (x :: g) :: gs

/-- Python's `s.split("-")` on character lists. -/
def splitOnChar (c : Char) (l : List Char) : List (List Char) :=
  splitWhen (fun x => x = c) l

/-- Digit-string value: `some` of the decimal value when the list is a
non-empty run of ASCII digits, `none` otherwise. -/
def digitsAux (acc : ℕ) : List Char → Option ℕ
  | [] => some acc
  | c :: cs => if c.isDigit then digitsAux (acc * 10 + (c.toNat - 48)) cs else none

/-- Value of a non-empty all-digit character list. -/
def digitsVal? (l : List Char) : Option ℕ :=
  match l with
  | [] => none
  | _ => digitsAux 0 l

/-- Python's `int(s)` on the strings this parser meets: surrounding
whitespace is stripped, one optional sign is allowed, and the rest must
be a non-empty digit run; `none` models the `ValueError` the source
catches.  (Python additionally accepts digit-group underscores and
non-ASCII digits; no score token contains those.) -/
def pyInt? (l : List Char) : Option ℤ :=
  let t := ((l.dropWhile Char.isWhitespace).reverse.dropWhile
    Char.isWhitespace).reverse
  match t with
  | '-' :: rest => (digitsVal? rest).map fun n => -(n : ℤ)
  | '+' :: rest => (digitsVal? rest).map fun n => (n : ℤ)
  | rest => (digitsVal? rest).map fun n => (n : ℤ)

/-- Componentwise sum of two `(w_games, l_games, w_sets, l_sets)`
tallies. -/
def add4 (a b : ℤ × ℤ × ℤ × ℤ) : ℤ × ℤ × ℤ × ℤ :=
  (a.1 + b.1, a.2.1 + b.2.1, a.2.2.1 + b.2.2.1, a.2.2.2 + b.2.2.2)

/-- Retirement/walkover marker test of `parse_match_score`:
`"RET" in s or "W/O" in s or "def." in s`. -/
def hasMarker (cs : List Char) : Bool :=
  hasSub "RET".data cs || hasSub "W/O".data cs || hasSub "def.".data cs

/-- The tiebreak strip `if "(" in s: s = s.split("(")[0]` — keeping
the characters before the first `(`; when no `(` occurs this is the
whole token, so the source's guard changes nothing. -/
def stripTiebreak (cs : List Char) : List Char :=
  cs.takeWhile (fun c => ¬ c = '(')

/-- The `parts = s.split("-")` stage of one token: with exactly two
parts that both parse as integers, contribute the two game counts and
one set to the side with strictly more games; otherwise contribute
nothing (the `continue` / caught `ValueError` paths). -/
def splitContribution (cs : List Char) : ℤ × ℤ × ℤ × ℤ :=
  match splitOnChar '-' cs with
  | [a, b] =>
      match pyInt? a, pyInt? b with
      | some wg, some lg =>
          (wg, lg, if wg > lg then 1 else 0, if lg > wg then 1 else 0)
      | _, _ => (0, 0, 0, 0)
  | _ => (0, 0, 0, 0)

/-- What one whitespace-separated token of the score string adds to the
four running tallies of `parse_match_score`. -/
def tokenContribution (t : List Char) : ℤ × ℤ × ℤ × ℤ :=
  if hasMarker t then (0, 0, 0, 0)
  else splitContribution (stripTiebreak t)

/-- Python's `score_str.split()`: split on whitespace runs, dropping
empty chunks. -/
def scoreTokens (s : String) : List (List Char) :=
  (splitWhen Char.isWhitespace s.data).filter fun t => ¬ t = []

/-- `parse_match_score` from `preprocess.py`.  The `none` input models
a non-string score cell (the `isinstance` guard); a string whose
characters are all whitespace returns all zeroes via the
`score_str.strip()` guard; otherwise the token contributions are
accumulated in order. -/
def parse_match_score : Option String → ℤ × ℤ × ℤ × ℤ
  | none => (0, 0, 0, 0)
  | some s =>
      if s.data.all Char.isWhitespace then (0, 0, 0, 0)
      else (scoreTokens s).foldl (fun acc t => add4 acc (tokenContribution t))
        (0, 0, 0, 0)

/-- Heap model for the frame-mutation claim: a pandas object is either
a match-centric frame or a player-centric (event) frame, each carrying
its engineered columns by name; a column cell is `none` for `NaN`. -/
inductive PdData where
  | matches (rows : List MatchRow) (cols : List (String × List (Option ℚ)))
  | events (evs : List PlayerEvent) (cols : List (String × List (Option ℚ)))
deriving DecidableEq

/-- Object references and the heap of live pandas objects. -/
abbrev Ref := ℕ

/-- A heap assigns a pandas object to every reference. -/
abbrev Heap := Ref → PdData

/-- Heap update: the in-place effect of a `frame[col] = ...` statement
on the object a variable currently refers to. -/
def hset (h : Heap) (r : Ref) (v : PdData) : Heap :=
  fun x => if x = r then v else h x

/-- Add or overwrite one named column. -/
def upsertCol (name : String) (vals : List (Option ℚ)) :
    List (String × List (Option ℚ)) → List (String × List (Option ℚ))
  | [] => [(name, vals)]
  | c :: rest =>
      if c.1 = name then (name, vals) :: rest else c :: upsertCol name vals rest

/-- Column assignment on an object's content. -/
def PdData.setCol (d : PdData) (name : String) (vals : List (Option ℚ)) :
    PdData :=
  match d with
  | .matches rows cols => .matches rows (upsertCol name vals cols)
  | .events evs cols => .events evs (upsertCol name vals cols)

/-- The row permutation chosen by `sort_values("tourney_date")`, as the
original index of each output position. -/
def sortPerm (rows : List MatchRow) : List ℕ :=
  (sortRowsIdx rows).map Prod.fst

/-- Reorder a column along a row permutation. -/
def gather (perm : List ℕ) (vals : List (Option ℚ)) : List (Option ℚ) :=
  perm.map fun i => (vals.get? i).getD none

/-- `df.sort_values("tourney_date").reset_index(drop=True)` on an
object's content (only match frames are ever sorted this way). -/
def PdData.sortByDate (d : PdData) : PdData :=
  match d with
  | .matches rows cols =>
      .matches (sortRows rows) (cols.map fun c => (c.1, gather (sortPerm rows) c.2))
  | .events evs cols => .events evs cols

/-- Raw (pre-fill) rolling column of a sorted player frame, in frame
order. -/
def rawColVals (s : List PlayerEvent) (m : Metric) (window : ℕ) :
    List (Option ℚ) :=
  (rollingColAux s m window 0 s).map Prod.snd

/-- The column name `compute_rolling_features` writes for a metric and
window. -/
def metricColName : Metric → ℕ → String
  | .won, w => "recent_win_rate_" ++ toString w
  | .games_won, w => "recent_games_won_avg_" ++ toString w
  | .games_lost, w => "recent_games_lost_avg_" ++ toString w
  | .sets_won, w => "recent_sets_won_avg_" ++ toString w
  | .sets_lost, w => "recent_sets_lost_avg_" ++ toString w

/-- The five column writes of one `for window in windows` iteration. -/
def addRollingCols (d : PdData) (window : ℕ) : PdData :=
  match d with
  | .events evs cols =>
      .events evs
        ([Metric.won, Metric.games_won, Metric.games_lost, Metric.sets_won,
          Metric.sets_lost].foldl
          (fun acc m => upsertCol (metricColName m window)
            (rawColVals evs m window) acc) cols)
  | x => x

/-- Mean of a column that may contain `NaN` cells, pandas-style. -/
def optMean (vals : List (Option ℚ)) : Option ℚ :=
  let v := vals.filterMap id
  if v.length = 0 then none else some (v.sum / (v.length : ℚ))

/-- `fillna` on a raw column. -/
def fillVals (fill : Option ℚ) (vals : List (Option ℚ)) : List (Option ℚ) :=
  vals.map (fillCell fill)

/-- `player_df[win_cols] = player_df[win_cols].fillna(DEFAULT_WIN_PCT)`:
every column whose name contains `win_rate` is `NaN`-filled with the
default. -/
def fillWinRateWrite (d : PdData) : PdData :=
  match d with
  | .events evs cols =>
      .events evs (cols.map fun c =>
        if hasSub "win_rate".data c.1.data then
          (c.1, fillVals (some DEFAULT_WIN_PCT) c.2)
        else c)
  | x => x

/-- The `for col in stat_cols` fill loop: every column whose name
contains `recent_` but not `win_rate` is `NaN`-filled with its own
mean. -/
def fillStatWrite (d : PdData) : PdData :=
  match d with
  | .events evs cols =>
      .events evs (cols.map fun c =>
        if hasSub "recent_".data c.1.data ∧ ¬ hasSub "win_rate".data c.1.data then
          (c.1, fillVals (optMean c.2) c.2)
        else c)
  | x => x

/-- One role's rolling columns pulled back into match-row order: the
`set_index('match_index')` plus `join` alignment, with a `p1_`/`p2_`
name prefix according to the role. -/
def joinRole (d : PdData) (side1 : Bool) (n : ℕ) : List (String × List (Option ℚ)) :=
  match d with
  | .events evs cols =>
      cols.filterMap fun c =>
        if hasSub "recent_".data c.1.data then
          some ((if side1 then "p1_" else "p2_") ++ c.1,
            (List.range n).map fun i =>
              match (evs.zip c.2).find? (fun p =>
                  p.1.match_index = i ∧ p.1.side1 = side1) with
              | some p => p.2
              | none => none)
        else none
  | _ => []

/-- Append joined columns onto a match frame (`df = df.join(...)`,
which builds a new frame). -/
def PdData.joinCols (d : PdData) (newCols : List (String × List (Option ℚ))) :
    PdData :=
  match d with
  | .matches rows cols => .matches rows (cols ++ newCols)
  | x => x

/-- Rows of a match frame. -/
def PdData.rowsOf : PdData → List MatchRow
  | .matches rows _ => rows
  | .events _ _ => []

/-- The allocation-and-mutation trace of one `add_features(df)` call,
including the inner `compute_rolling_features(df)` call, over an
explicit heap.  `r0` is the caller's argument object and `fresh` the
first unused reference; each pandas expression that builds a new frame
allocates the next reference, and each `frame[col] = ...` statement is
a heap write to the reference its variable currently holds.  Returns
the final heap and the reference of the returned frame. -/
def runAddFeatures (h0 : Heap) (r0 fresh : Ref) : Heap × Ref :=
  -- df = df.copy()
  let r1 := fresh
  let h1 := hset h0 r1 (h0 r0)
  -- df["tourney_date"] = pd.to_datetime(df["tourney_date"], ...): an
  -- in-place write on the copy; dates are already modelled by their
  -- sort key, so the written content is unchanged.
  let h2 := hset h1 r1 (h1 r1)
  -- df = df.sort_values("tourney_date").reset_index(drop=True)
  let r2 := fresh + 1
  let h3 := hset h2 r2 ((h2 r1).sortByDate)
  let rows := (h3 r2).rowsOf
  let feats := (processAll rows).1
  -- the iterrows loop only appends to plain Python lists; then
  -- df["p1_surface_win_pct"] = ..., df["p2_surface_win_pct"] = ...,
  -- df["h2h_diff"] = ... are three writes on the sorted frame.
  let h4 := hset h3 r2 ((h3 r2).setCol "p1_surface_win_pct"
    (feats.map fun f => some f.1))
  let h5 := hset h4 r2 ((h4 r2).setCol "p2_surface_win_pct"
    (feats.map fun f => some f.2.1))
  let h6 := hset h5 r2 ((h5 r2).setCol "h2h_diff"
    (feats.map fun f => some ((f.2.2 : ℚ))))
  -- compute_rolling_features(df) begins here; its df is r2.
  -- df_p1 = df[list(p1_cols.keys())].rename(columns=p1_cols)
  let r3 := fresh + 2
  let h7 := hset h6 r3 (.events (rows.enum.map fun p => p1Event p.1 p.2) [])
  -- df_p1['match_index'] = df.index ; df_p1['is_p1'] = True: writes on
  -- r3 completing fields the event records already carry.
  let h8 := hset h7 r3 (h7 r3)
  let h9 := hset h8 r3 (h8 r3)
  -- df_p2 = df.copy()
  let r4 := fresh + 3
  let h10 := hset h9 r4 (h9 r2)
  -- df_p2['match_index'] = df.index ; df_p2['won_inverse'] = 1 - df_p2['target']
  let h11 := hset h10 r4 (h10 r4)
  let h12 := hset h11 r4 (h11 r4)
  -- df_p2 = df_p2[list(p2_cols.keys()) + ['match_index']]
  let r5 := fresh + 4
  let h13 := hset h12 r5 (.events (rows.enum.map fun p => p2Event p.1 p.2) [])
  -- df_p2 = df_p2.rename(columns=p2_cols)
  let r6 := fresh + 5
  let h14 := hset h13 r6 (h13 r5)
  -- df_p2['is_p1'] = False
  let h15 := hset h14 r6 (h14 r6)
  -- player_df = pd.concat([df_p1, df_p2], ignore_index=True)
  let r7 := fresh + 6
  let h16 := hset h15 r7 (.events (mkEvents rows) [])
  -- player_df = player_df.sort_values(['player', 'date', 'match_index'])
  let r8 := fresh + 7
  let h17 := hset h16 r8 (.events (sortEvents (mkEvents rows)) [])
  -- for window in windows: rolling_stats = grouped.apply(...) allocates
  -- a stats frame, then five column writes land on player_df (r8).
  let r9 := fresh + 8
  let h18 := hset h17 r9 (addRollingCols (.events (sortEvents (mkEvents rows)) []) 5)
  let h19 := hset h18 r8 (addRollingCols (h18 r8) 5)
  let r10 := fresh + 9
  let h20 := hset h19 r10 (addRollingCols (.events (sortEvents (mkEvents rows)) []) 10)
  let h21 := hset h20 r8 (addRollingCols (h20 r8) 10)
  -- player_df[win_cols] = player_df[win_cols].fillna(config.DEFAULT_WIN_PCT)
  let h22 := hset h21 r8 (fillWinRateWrite (h21 r8))
  -- for col in stat_cols: player_df[col] = player_df[col].fillna(mean)
  let h23 := hset h22 r8 (fillStatWrite (h22 r8))
  -- p1_features = player_df[player_df['is_p1']].set_index('match_index')
  -- and its rename; likewise for p2_features.
  let r11 := fresh + 10
  let h24 := hset h23 r11 (h23 r8)
  let r12 := fresh + 11
  let h25 := hset h24 r12 (h24 r11)
  let r13 := fresh + 12
  let h26 := hset h25 r13 (h25 r8)
  let r14 := fresh + 13
  let h27 := hset h26 r14 (h26 r13)
  -- df = df.join(p1_features[...]) ; df = df.join(p2_features[...])
  let r15 := fresh + 14
  let h28 := hset h27 r15 ((h27 r2).joinCols (joinRole (h27 r12) true rows.length))
  let r16 := fresh + 15
  let h29 := hset h28 r16 ((h28 r15).joinCols (joinRole (h28 r14) false rows.length))
  (h29, r16)

/-- The six-match fixture of `tests/test_rolling.py` (`setUp`): player
A appears in every match, alternating roles, with outcomes
win, loss, loss, win, win, loss. -/
def testDF : List MatchRow :=
  [{ tourney_date := 20230101, surface := some "Hard", p1_name := "A",
     p2_name := "X", target := 1,
     p1_games_won := 12, p1_games_lost := 8, p1_sets_won := 2, p1_sets_lost := 0,
     p2_games_won := 8, p2_games_lost := 12, p2_sets_won := 0, p2_sets_lost := 2 },
   { tourney_date := 20230102, surface := some "Hard", p1_name := "B",
     p2_name := "A", target := 1,
     p1_games_won := 12, p1_games_lost := 0, p1_sets_won := 2, p1_sets_lost := 0,
     p2_games_won := 0, p2_games_lost := 12, p2_sets_won := 0, p2_sets_lost := 2 },
   { tourney_date := 20230103, surface := some "Hard", p1_name := "A",
     p2_name := "Y", target := 0,
     p1_games_won := 6, p1_games_lost := 12, p1_sets_won := 0, p1_sets_lost := 2,
     p2_games_won := 12, p2_games_lost := 6, p2_sets_won := 2, p2_sets_lost := 0 },
   { tourney_date := 20230104, surface := some "Hard", p1_name := "C",
     p2_name := "A", target := 0,
     p1_games_won := 10, p1_games_lost := 15, p1_sets_won := 1, p1_sets_lost := 2,
     p2_games_won := 15, p2_games_lost := 10, p2_sets_won := 2, p2_sets_lost := 1 },
   { tourney_date := 20230105, surface := some "Hard", p1_name := "A",
     p2_name := "Z", target := 1,
     p1_games_won := 12, p1_games_lost := 8, p1_sets_won := 2, p1_sets_lost := 0,
     p2_games_won := 8, p2_games_lost := 12, p2_sets_won := 0, p2_sets_lost := 2 },
   { tourney_date := 20230106, surface := some "Hard", p1_name := "D",
     p2_name := "A", target := 1,
     p1_games_won := 12, p1_games_lost := 8, p1_sets_won := 2, p1_sets_lost := 0,
     p2_games_won := 8, p2_games_lost := 12, p2_sets_won := 0, p2_sets_lost := 2 }]

/-- C6: on the six-match fixture, player A is player 2 of match 6
(row index 5) and the 5-window rolling features attached there are
win rate 3/5 = 0.6, games-won average 9 and games-lost average 10,
computed over A's five prior matches. -/
theorem C6_window_correctness :
    testDF[5]?.map (fun r => r.p2_name) = some "A" ∧
    recentFeature testDF false .won 5 5 = some (3 / 5) ∧
    recentFeature testDF false .games_won 5 5 = some 9 ∧
    recentFeature testDF false .games_lost 5 5 = some 10 := by
  refine ⟨by decide, ?_, ?_, ?_⟩ <;>
    norm_num +decide [recentFeature, featLookup, filledCol, fillCol, fillCell,
      rollingCol, rollingColAux, rollingRawAt, priorVals, sortEvents,
      stableSort, insertLe, eventLe, mkEvents, p1Event, p2Event, Metric.get,
      colMean, definedVals, List.filterMap_cons, List.filterMap_nil, testDF,
      DEFAULT_WIN_PCT, List.enum]

theorem add4_zero (a : ℤ × ℤ × ℤ × ℤ) : add4 a (0, 0, 0, 0) = a := by
  simp [add4]

theorem splitContribution_eq (cs a b : List Char)
    (hc : splitOnChar '-' cs = [a, b]) :
    splitContribution cs =
      match pyInt? a, pyInt? b with
      | some wg, some lg =>
          (wg, lg, if wg > lg then 1 else 0, if lg > wg then 1 else 0)
      | _, _ => (0, 0, 0, 0) := by
  unfold splitContribution
  rw [hc]

theorem splitWhen_ne_nil (p : Char → Bool) (l : List Char) :
    splitWhen p l ≠ [] := by
  cases l with
  | nil => simp [splitWhen]
  | cons x xs =>
      simp only [splitWhen]
      rcases h : splitWhen p xs with - | ⟨g, gs⟩
      · simp
      · by_cases hp : p x <;> simp [hp]

theorem scoreTokens_all_ws (s : String)
    (h : s.data.all Char.isWhitespace = true) : scoreTokens s = [] := by
  unfold scoreTokens
  have main : ∀ cs : List Char, (∀ c ∈ cs, c.isWhitespace = true) →
      (splitWhen Char.isWhitespace cs).filter (fun t => ¬ t = []) = [] := by
    intro cs
    induction cs with
    | nil => intro _; simp [splitWhen]
    | cons c rest ih =>
        intro hws
        rcases hsp : splitWhen Char.isWhitespace rest with - | ⟨g, gs⟩
        · exact absurd hsp (splitWhen_ne_nil _ _)
        · have hrest := ih fun c hc => hws c (by simp [hc])
          rw [hsp] at hrest
          simp only [splitWhen, hsp, hws c (by simp), if_true]
          simpa using hrest
  exact main s.data (by simpa [List.all_eq_true] using h)

theorem foldl_add4_zero (ts : List (List Char))
    (h : ∀ t ∈ ts, tokenContribution t = (0, 0, 0, 0)) :
    ts.foldl (fun acc t => add4 acc (tokenContribution t)) (0, 0, 0, 0) =
      (0, 0, 0, 0) := by
  induction ts with
  | nil => rfl
  | cons t rest ih =>
      simp only [List.foldl_cons, h t (by simp), add4_zero]
      exact ih fun t ht => h t (by simp [ht])

/-- C8: the score parser is a total function: a non-string score yields
the all-zero tally, the parse is the fold of per-token contributions,
tokens carrying a retirement/walkover marker contribute nothing,
marker-free tokens are parsed from their characters before the first
`(` (the tiebreak strip), tokens that do not split into exactly two
integer parts contribute nothing, and a well-formed `a-b` token adds
the two game counts and one set to the side with strictly more
games. -/
theorem C8_score_parsing (s : String) (t a b : List Char) (wg lg : ℤ) :
    parse_match_score none = (0, 0, 0, 0) ∧
    (parse_match_score (some s) =
      (scoreTokens s).foldl (fun acc u => add4 acc (tokenContribution u))
        (0, 0, 0, 0)) ∧
    ((∀ u ∈ scoreTokens s, tokenContribution u = (0, 0, 0, 0)) →
      parse_match_score (some s) = (0, 0, 0, 0)) ∧
    (hasMarker t = true → tokenContribution t = (0, 0, 0, 0)) ∧
    (hasMarker t = false →
      tokenContribution t = splitContribution (stripTiebreak t)) ∧
    ((splitOnChar '-' (stripTiebreak t)).length ≠ 2 →
      splitContribution (stripTiebreak t) = (0, 0, 0, 0)) ∧
    (splitOnChar '-' (stripTiebreak t) = [a, b] →
      pyInt? a = none ∨ pyInt? b = none →
      splitContribution (stripTiebreak t) = (0, 0, 0, 0)) ∧
    (splitOnChar '-' (stripTiebreak t) = [a, b] →
      pyInt? a = some wg → pyInt? b = some lg →
      splitContribution (stripTiebreak t) =
        (wg, lg, if wg > lg then 1 else 0, if lg > wg then 1 else 0)) := by
  refine ⟨rfl, ?_, ?_, ?_, ?_, ?_, ?_, ?_⟩
  · simp only [parse_match_score]
    by_cases hws : s.data.all Char.isWhitespace = true
    · rw [if_pos hws, scoreTokens_all_ws s hws]
      rfl
    · rw [if_neg hws]
  · intro h
    simp only [parse_match_score]
    by_cases hws : s.data.all Char.isWhitespace = true
    · rw [if_pos hws]
    · rw [if_neg hws]
      exact foldl_add4_zero _ h
  · intro hm
    simp [tokenContribution, hm]
  · intro hm
    simp [tokenContribution, hm]
  · intro hs
    unfold splitContribution
    rcases hc : splitOnChar '-' (stripTiebreak t) with - | ⟨x, xs⟩
    · rfl
    · rcases xs with - | ⟨y, ys⟩
      · rfl
      · rcases ys with - | ⟨z, zs⟩
        · rw [hc] at hs
          simp at hs
        · rfl
  · intro hc hn
    rw [splitContribution_eq _ a b hc]
    rcases hn with hn | hn
    · rw [hn]
    · rw [hn]
      rcases hva : pyInt? a with - | va <;> rfl
  · intro hc ha hb
    rw [splitContribution_eq _ a b hc, ha, hb]

theorem C8_witness :
    parse_match_score (some "abc def.") = (0, 0, 0, 0) ∧
    tokenContribution "6-4(RET)".data = (0, 0, 0, 0) ∧
    tokenContribution "7-6(5)".data =
      splitContribution (stripTiebreak "7-6(5)".data) ∧
    splitContribution (stripTiebreak "64".data) = (0, 0, 0, 0) ∧
    splitContribution (stripTiebreak "6-x".data) = (0, 0, 0, 0) ∧
    splitContribution (stripTiebreak "7-6(5)".data) =
      (7, 6, if (7 : ℤ) > 6 then 1 else 0, if (6 : ℤ) > 7 then 1 else 0) :=
  ⟨(C8_score_parsing "abc def." [] [] [] 0 0).2.2.1 (by decide),
    (C8_score_parsing "" "6-4(RET)".data [] [] 0 0).2.2.2.1 (by decide),
    (C8_score_parsing "" "7-6(5)".data [] [] 0 0).2.2.2.2.1 (by decide),
    (C8_score_parsing "" "64".data [] [] 0 0).2.2.2.2.2.1 (by decide),
    (C8_score_parsing "" "6-x".data "6".data "x".data 0 0).2.2.2.2.2.2.1
      (by decide) (Or.inr (by decide)),
    (C8_score_parsing "" "7-6(5)".data "7".data "6".data 7 6).2.2.2.2.2.2.2
      (by decide) (by decide) (by decide)⟩

theorem insertLe_perm (le : α → α → Bool) (x : α) (l : List α) :
    (insertLe le x l).Perm (x :: l) := by
  induction l with
  | nil => simp [insertLe]
  | cons y ys ih =>
      simp only [insertLe]
      split
      · exact List.Perm.refl _
      · exact (ih.cons y).trans (List.Perm.swap x y ys)

theorem stableSort_perm (le : α → α → Bool) (l : List α) :
    (stableSort le l).Perm l := by
  induction l with
  | nil => simp [stableSort]
  | cons x xs ih => exact (insertLe_perm le x _).trans (ih.cons x)

theorem mem_insertLe {le : α → α → Bool} {x a : α} {l : List α} :
    a ∈ insertLe le x l ↔ a = x ∨ a ∈ l := by
  rw [(insertLe_perm le x l).mem_iff]
  simp

theorem mem_stableSort {le : α → α → Bool} {a : α} {l : List α} :
    a ∈ stableSort le l ↔ a ∈ l :=
  (stableSort_perm le l).mem_iff

theorem pairwise_insertLe {le : α → α → Bool}
    (htot : ∀ a b, le a b = true ∨ le b a = true)
    (htrans : ∀ a b c, le a b = true → le b c = true → le a c = true)
    {x : α} {l : List α} (hl : l.Pairwise fun a b => le a b = true) :
    (insertLe le x l).Pairwise fun a b => le a b = true := by
  induction l with
  | nil => simp [insertLe]
  | cons y ys ih =>
      rcases List.pairwise_cons.mp hl with ⟨hy, hys⟩
      simp only [insertLe]
      split
      · rename_i hxy
        refine List.pairwise_cons.mpr ⟨?_, hl⟩
        intro z hz
        rcases List.mem_cons.mp hz with rfl | hz
        · exact hxy
        · exact htrans x y z hxy (hy z hz)
      · rename_i hxy
        have hyx : le y x = true := by
          rcases htot x y with h | h
          · exact absurd h hxy
          · exact h
        refine List.pairwise_cons.mpr ⟨?_, ih hys⟩
        intro z hz
        rcases mem_insertLe.mp hz with rfl | hz
        · exact hyx
        · exact hy z hz

theorem pairwise_stableSort {le : α → α → Bool}
    (htot : ∀ a b, le a b = true ∨ le b a = true)
    (htrans : ∀ a b c, le a b = true → le b c = true → le a c = true)
    (l : List α) : (stableSort le l).Pairwise fun a b => le a b = true := by
  induction l with
  | nil => simp [stableSort]
  | cons x xs ih => exact pairwise_insertLe htot htrans ih

theorem rowLe_total (a b : ℕ × MatchRow) :
    rowLe a b = true ∨ rowLe b a = true := by
  simp only [rowLe, decide_eq_true_eq]
  omega

theorem rowLe_trans (a b c : ℕ × MatchRow) :
    rowLe a b = true → rowLe b c = true → rowLe a c = true := by
  simp only [rowLe, decide_eq_true_eq]
  omega

theorem eventLe_iff (a b : PlayerEvent) : eventLe a b = true ↔
    (a.player < b.player ∨ (a.player = b.player ∧
      (a.date < b.date ∨ (a.date = b.date ∧ a.match_index ≤ b.match_index)))) := by
  unfold eventLe
  by_cases h1 : a.player = b.player
  · rw [if_pos h1]
    by_cases h2 : a.date = b.date
    · rw [if_pos h2]
      simp only [decide_eq_true_eq]
      constructor
      · intro h
        exact Or.inr ⟨h1, Or.inr ⟨h2, h⟩⟩
      · rintro (h | ⟨-, h | ⟨-, h⟩⟩)
        · rw [h1] at h
          exact absurd h (lt_irrefl _)
        · omega
        · exact h
    · rw [if_neg h2]
      simp only [decide_eq_true_eq]
      constructor
      · intro h
        exact Or.inr ⟨h1, Or.inl (lt_of_le_of_ne h h2)⟩
      · rintro (h | ⟨-, h | ⟨h, -⟩⟩)
        · rw [h1] at h
          exact absurd h (lt_irrefl _)
        · exact le_of_lt h
        · exact absurd h h2
  · rw [if_neg h1]
    simp only [decide_eq_true_eq]
    constructor
    · intro h
      exact Or.inl (lt_of_le_of_ne h h1)
    · rintro (h | ⟨h, -⟩)
      · exact le_of_lt h
      · exact absurd h h1

theorem eventLe_total (a b : PlayerEvent) :
    eventLe a b = true ∨ eventLe b a = true := by
  rw [eventLe_iff, eventLe_iff]
  rcases lt_trichotomy a.player b.player with h | h | h
  · exact Or.inl (Or.inl h)
  · rcases lt_trichotomy a.date b.date with h2 | h2 | h2
    · exact Or.inl (Or.inr ⟨h, Or.inl h2⟩)
    · rcases Nat.le_total a.match_index b.match_index with h3 | h3
      · exact Or.inl (Or.inr ⟨h, Or.inr ⟨h2, h3⟩⟩)
      · exact Or.inr (Or.inr ⟨h.symm, Or.inr ⟨h2.symm, h3⟩⟩)
    · exact Or.inr (Or.inr ⟨h.symm, Or.inl h2⟩)
  · exact Or.inr (Or.inl h)

theorem eventLe_trans (a b c : PlayerEvent) :
    eventLe a b = true → eventLe b c = true → eventLe a c = true := by
  rw [eventLe_iff, eventLe_iff, eventLe_iff]
  rintro (h | ⟨h1, h2⟩) (h' | ⟨h1', h2'⟩)
  · exact Or.inl (lt_trans h h')
  · exact Or.inl (h1' ▸ h)
  · exact Or.inl (h1 ▸ h')
  · refine Or.inr ⟨h1.trans h1', ?_⟩
    rcases h2 with h2 | ⟨hd, hi⟩ <;> rcases h2' with h2' | ⟨hd', hi'⟩
    · exact Or.inl (lt_trans h2 h2')
    · exact Or.inl (hd' ▸ h2)
    · exact Or.inl (hd ▸ h2')
    · exact Or.inr ⟨hd.trans hd', hi.trans hi'⟩

theorem pairwise_fst_lt_enumFrom (n : ℕ) (l : List MatchRow) :
    (List.enumFrom n l).Pairwise fun a b => a.1 < b.1 := by
  induction l generalizing n with
  | nil => simp
  | cons x xs ih =>
      refine List.pairwise_cons.mpr ⟨?_, ih (n + 1)⟩
      rintro ⟨i, y⟩ hy
      have := (List.mk_mem_enumFrom_iff_le_and_getElem?_sub.mp hy).1
      simpa using this

theorem pairwise_rIdxLt_insertLe {x : ℕ × MatchRow} {l : List (ℕ × MatchRow)}
    (hl : l.Pairwise rIdxLt) (hidx : ∀ y ∈ l, x.1 < y.1) :
    (insertLe rowLe x l).Pairwise rIdxLt := by
  induction l with
  | nil => simp [insertLe]
  | cons y ys ih =>
      rcases List.pairwise_cons.mp hl with ⟨hy, hys⟩
      simp only [insertLe]
      split
      · rename_i hxy
        have hdxy : x.2.tourney_date ≤ y.2.tourney_date := by
          simpa [rowLe] using hxy
        refine List.pairwise_cons.mpr ⟨?_, hl⟩
        intro z hz
        rcases List.mem_cons.mp hz with rfl | hz
        · rcases lt_or_eq_of_le hdxy with h | h
          · exact Or.inl h
          · exact Or.inr ⟨h, hidx z (by simp)⟩
        · have hdyz : y.2.tourney_date ≤ z.2.tourney_date := by
            rcases hy z hz with h | ⟨h, -⟩
            · exact le_of_lt h
            · exact le_of_eq h
          rcases lt_or_eq_of_le (le_trans hdxy hdyz) with h | h
          · exact Or.inl h
          · exact Or.inr ⟨h, hidx z (by simp [hz])⟩
      · rename_i hxy
        have hdyx : y.2.tourney_date < x.2.tourney_date := by
          simp only [rowLe, decide_eq_true_eq] at hxy
          omega
        refine List.pairwise_cons.mpr ⟨?_, ih hys fun z hz => hidx z (by simp [hz])⟩
        intro z hz
        rcases mem_insertLe.mp hz with rfl | hz
        · exact Or.inl hdyx
        · exact hy z hz

theorem pairwise_rIdxLt_stableSort {l : List (ℕ × MatchRow)}
    (h : l.Pairwise fun a b => a.1 < b.1) :
    (stableSort rowLe l).Pairwise rIdxLt := by
  induction l with
  | nil => simp [stableSort]
  | cons x xs ih =>
      rcases List.pairwise_cons.mp h with ⟨hx, hxs⟩
      simp only [stableSort]
      refine pairwise_rIdxLt_insertLe (ih hxs) ?_
      intro y hy
      exact hx y (mem_stableSort.mp hy)

theorem pairwise_rIdxLt_sortRowsIdx (rows : List MatchRow) :
    (sortRowsIdx rows).Pairwise rIdxLt :=
  pairwise_rIdxLt_stableSort (pairwise_fst_lt_enumFrom 0 rows)

/-- The assembler's sorted frame has non-decreasing dates. -/
theorem sortRows_dates_nondecr (rows : List MatchRow) :
    (sortRows rows).Pairwise fun a b => a.tourney_date ≤ b.tourney_date := by
  have h := pairwise_rIdxLt_sortRowsIdx rows
  unfold sortRows
  refine List.Pairwise.map Prod.snd (fun a b hab => ?_) h
  rcases hab with hab | ⟨hab, -⟩
  · exact le_of_lt hab
  · exact le_of_eq hab

theorem processAux_length (st : StreamState) (l : List MatchRow) :
    (processAux st l).1.length = l.length := by
  induction l generalizing st with
  | nil => rfl
  | cons r rest ih => simp [processAux, ih]

theorem processAux_getElem? (st : StreamState) (l : List MatchRow) (k : ℕ) :
    (processAux st l).1[k]? =
      (l[k]?).map fun row => (stepRow (processAux st (l.take k)).2 row).1 := by
  induction l generalizing st k with
  | nil => simp [processAux]
  | cons r rest ih =>
      cases k with
      | zero => simp [processAux]
      | succ k => simpa [processAux] using ih (stepRow st r).2 k

theorem processAux_append (st : StreamState) (l1 l2 : List MatchRow) :
    processAux st (l1 ++ l2) =
      ((processAux st l1).1 ++ (processAux (processAux st l1).2 l2).1,
        (processAux (processAux st l1).2 l2).2) := by
  induction l1 generalizing st with
  | nil => simp [processAux]
  | cons r rest ih => simp [processAux, ih]

theorem surfLookup_update_self (h : SurfaceHistory) (p s : String) (w : Bool) :
    surfLookup (update_surface_history h p s w) (p, s) =
      some (((surfLookup h (p, s)).getD (0, 0)).1 + (if w then 1 else 0),
        ((surfLookup h (p, s)).getD (0, 0)).2 + 1) := by
  induction h with
  | nil => simp [update_surface_history, surfLookup, List.find?]
  | cons e rest ih =>
      by_cases he : e.1 = (p, s)
      · simp [update_surface_history, he, surfLookup, List.find?]
      · simp only [update_surface_history, if_neg he]
        simpa [surfLookup, List.find?, he] using ih

theorem surfLookup_update_ne (h : SurfaceHistory) (p s : String) (w : Bool)
    (k : String × String) (hk : k ≠ (p, s)) :
    surfLookup (update_surface_history h p s w) k = surfLookup h k := by
  have hk' : ¬ (p, s) = k := fun hh => hk hh.symm
  induction h with
  | nil => simp [update_surface_history, surfLookup, List.find?, hk']
  | cons e rest ih =>
      by_cases he : e.1 = (p, s)
      · have hek : ¬ e.1 = k := by
          rw [he]
          exact hk'
        simp [update_surface_history, he, surfLookup, List.find?, hek, hk']
      · simp only [update_surface_history, if_neg he]
        by_cases hek : e.1 = k
        · simp [surfLookup, List.find?, hek]
        · simpa [surfLookup, List.find?, hek] using ih

theorem h2hLookup_bump_self (h : H2HHistory) (k : String × String) (i : ℕ) :
    h2hLookup (h2hBump h k i) k =
      some (((h2hLookup h k).getD (0, 0)).1 + (if i = 0 then 1 else 0),
        ((h2hLookup h k).getD (0, 0)).2 + (if i = 0 then 0 else 1)) := by
  induction h with
  | nil => simp [h2hBump, h2hLookup, List.find?]
  | cons e rest ih =>
      by_cases he : e.1 = k
      · simp [h2hBump, he, h2hLookup, List.find?]
      · simp only [h2hBump, if_neg he]
        simpa [h2hLookup, List.find?, he] using ih

theorem h2hLookup_bump_ne (h : H2HHistory) (k k' : String × String) (i : ℕ)
    (hk : k' ≠ k) : h2hLookup (h2hBump h k i) k' = h2hLookup h k' := by
  have hk' : ¬ k = k' := fun hh => hk hh.symm
  induction h with
  | nil => simp [h2hBump, h2hLookup, List.find?, hk']
  | cons e rest ih =>
      by_cases he : e.1 = k
      · have hek : ¬ e.1 = k' := by
          rw [he]
          exact hk'
        simp [h2hBump, he, h2hLookup, List.find?, hek, hk']
      · simp only [h2hBump, if_neg he]
        by_cases hek : e.1 = k'
        · simp [h2hLookup, List.find?, hek]
        · simpa [h2hLookup, List.find?, hek] using ih

theorem surfTotalSum_update (h : SurfaceHistory) (p s : String) (w : Bool) :
    surfTotalSum (update_surface_history h p s w) = surfTotalSum h + 1 := by
  induction h with
  | nil => simp [update_surface_history, surfTotalSum]
  | cons e rest ih =>
      by_cases he : e.1 = (p, s)
      · simp [update_surface_history, he, surfTotalSum]
        omega
      · simp only [update_surface_history, if_neg he]
        simp [surfTotalSum] at ih ⊢
        omega

theorem h2hWinSum_bump (h : H2HHistory) (k : String × String) (i : ℕ) :
    h2hWinSum (h2hBump h k i) = h2hWinSum h + 1 := by
  induction h with
  | nil =>
      by_cases hi : i = 0 <;> simp [h2hBump, h2hWinSum, hi]
  | cons e rest ih =>
      by_cases he : e.1 = k
      · by_cases hi : i = 0 <;> simp [h2hBump, he, h2hWinSum, hi] <;> omega
      · simp only [h2hBump, if_neg he]
        simp [h2hWinSum] at ih ⊢
        omega

theorem stepRow_state_sums (st : StreamState) (row : MatchRow) :
    surfTotalSum (stepRow st row).2.surf = surfTotalSum st.surf + 2 ∧
    h2hWinSum (stepRow st row).2.h2h = h2hWinSum st.h2h + 1 := by
  simp only [stepRow]
  constructor
  · rw [surfTotalSum_update, surfTotalSum_update]
  · rw [h2hWinSum_bump]

theorem processAux_state_sums (st : StreamState) (l : List MatchRow) :
    surfTotalSum (processAux st l).2.surf = surfTotalSum st.surf + 2 * l.length ∧
    h2hWinSum (processAux st l).2.h2h = h2hWinSum st.h2h + l.length := by
  induction l generalizing st with
  | nil => simp [processAux]
  | cons r rest ih =>
      have h1 := stepRow_state_sums st r
      have h2 := ih (stepRow st r).2
      simp only [processAux]
      constructor
      · rw [h2.1, h1.1]
        simp only [List.length_cons]
        ring
      · rw [h2.2, h1.2]
        simp only [List.length_cons]
        ring

theorem sortRows_length (rows : List MatchRow) :
    (sortRows rows).length = rows.length := by
  unfold sortRows sortRowsIdx
  rw [List.length_map, (stableSort_perm rowLe rows.enum).length_eq,
    List.enum_length]

theorem surfLookup_update_mono (h : SurfaceHistory) (p s : String) (w : Bool)
    (k : String × String) (wt : ℕ × ℕ) (hl : surfLookup h k = some wt) :
    ∃ wt', surfLookup (update_surface_history h p s w) k = some wt' ∧
      wt.1 ≤ wt'.1 ∧ wt.2 ≤ wt'.2 := by
  by_cases hk : k = (p, s)
  · subst hk
    rw [surfLookup_update_self, hl]
    exact ⟨_, rfl, by simp, by simp⟩
  · rw [surfLookup_update_ne h p s w k hk, hl]
    exact ⟨wt, rfl, le_refl _, le_refl _⟩

theorem h2hLookup_bump_mono (h : H2HHistory) (kk k : String × String) (i : ℕ)
    (wt : ℕ × ℕ) (hl : h2hLookup h k = some wt) :
    ∃ wt', h2hLookup (h2hBump h kk i) k = some wt' ∧
      wt.1 ≤ wt'.1 ∧ wt.2 ≤ wt'.2 := by
  by_cases hk : k = kk
  · subst hk
    rw [h2hLookup_bump_self, hl]
    exact ⟨_, rfl, by simp, by simp⟩
  · rw [h2hLookup_bump_ne h kk k i hk, hl]
    exact ⟨wt, rfl, le_refl _, le_refl _⟩

theorem stepRow_state_mono (st : StreamState) (row : MatchRow)
    (k : String × String) (wt : ℕ × ℕ) :
    (surfLookup st.surf k = some wt →
      ∃ wt', surfLookup (stepRow st row).2.surf k = some wt' ∧
        wt.1 ≤ wt'.1 ∧ wt.2 ≤ wt'.2) ∧
    (h2hLookup st.h2h k = some wt →
      ∃ wt', h2hLookup (stepRow st row).2.h2h k = some wt' ∧
        wt.1 ≤ wt'.1 ∧ wt.2 ≤ wt'.2) := by
  constructor
  · intro hl
    simp only [stepRow]
    rcases surfLookup_update_mono st.surf row.p1_name (surfaceOf row) _ k wt hl
      with ⟨wt1, h1, h1a, h1b⟩
    rcases surfLookup_update_mono _ row.p2_name (surfaceOf row) _ k wt1 h1
      with ⟨wt2, h2, h2a, h2b⟩
    exact ⟨wt2, h2, le_trans h1a h2a, le_trans h1b h2b⟩
  · intro hl
    simp only [stepRow]
    exact h2hLookup_bump_mono st.h2h _ k _ wt hl

theorem processAux_state_mono (st : StreamState) (l : List MatchRow)
    (k : String × String) (wt : ℕ × ℕ) :
    (surfLookup st.surf k = some wt →
      ∃ wt', surfLookup (processAux st l).2.surf k = some wt' ∧
        wt.1 ≤ wt'.1 ∧ wt.2 ≤ wt'.2) ∧
    (h2hLookup st.h2h k = some wt →
      ∃ wt', h2hLookup (processAux st l).2.h2h k = some wt' ∧
        wt.1 ≤ wt'.1 ∧ wt.2 ≤ wt'.2) := by
  induction l generalizing st wt with
  | nil => exact ⟨fun hl => ⟨wt, hl, le_refl _, le_refl _⟩,
      fun hl => ⟨wt, hl, le_refl _, le_refl _⟩⟩
  | cons r rest ih =>
      constructor
      · intro hl
        rcases (stepRow_state_mono st r k wt).1 hl with ⟨wt1, h1, h1a, h1b⟩
        rcases (ih (stepRow st r).2 wt1).1 h1 with ⟨wt2, h2, h2a, h2b⟩
        exact ⟨wt2, by simpa [processAux] using h2,
          le_trans h1a h2a, le_trans h1b h2b⟩
      · intro hl
        rcases (stepRow_state_mono st r k wt).2 hl with ⟨wt1, h1, h1a, h1b⟩
        rcases (ih (stepRow st r).2 wt1).2 h1 with ⟨wt2, h2, h2a, h2b⟩
        exact ⟨wt2, by simpa [processAux] using h2,
          le_trans h1a h2a, le_trans h1b h2b⟩

theorem pct_unknown (h : SurfaceHistory) (p : String) :
    get_surface_win_pct h p "Unknown" = DEFAULT_WIN_PCT := by
  simp [get_surface_win_pct]

theorem pct_entry (h : SurfaceHistory) (p s : String) (w t : ℕ)
    (hu : ¬ s = "Unknown") (hl : surfLookup h (p, s) = some (w, t)) :
    get_surface_win_pct h p s =
      if t > 0 then (w : ℚ) / t else DEFAULT_WIN_PCT := by
  unfold get_surface_win_pct
  rw [if_neg hu, hl]

theorem pct_absent (h : SurfaceHistory) (p s : String)
    (hu : ¬ s = "Unknown") (hl : surfLookup h (p, s) = none) :
    get_surface_win_pct h p s = DEFAULT_WIN_PCT := by
  unfold get_surface_win_pct
  rw [if_neg hu, hl]

theorem surfOK_update (h : SurfaceHistory) (p s : String) (won : Bool)
    (hOK : ∀ k w t, surfLookup h k = some (w, t) → w ≤ t) :
    ∀ k w t, surfLookup (update_surface_history h p s won) k = some (w, t) →
      w ≤ t := by
  intro k w t hl
  by_cases hk : k = (p, s)
  · subst hk
    rw [surfLookup_update_self] at hl
    rcases hcase : surfLookup h (p, s) with - | ⟨a, b⟩
    · rw [hcase] at hl
      cases won <;>
        simp only [Option.getD_none, Option.getD_some, Option.some.injEq,
          Prod.mk.injEq, Bool.false_eq_true, reduceIte] at hl <;>
        omega
    · rw [hcase] at hl
      have hab := hOK (p, s) a b hcase
      cases won <;>
        simp only [Option.getD_none, Option.getD_some, Option.some.injEq,
          Prod.mk.injEq, Bool.false_eq_true, reduceIte] at hl <;>
        omega
  · rw [surfLookup_update_ne h p s won k hk] at hl
    exact hOK k w t hl

theorem surfOK_reach (ops : List (String × String × Bool)) :
    ∀ k w t, surfLookup (surfReach ops) k = some (w, t) → w ≤ t := by
  unfold surfReach
  have main : ∀ (ops : List (String × String × Bool)) (h : SurfaceHistory),
      (∀ k w t, surfLookup h k = some (w, t) → w ≤ t) →
      ∀ k w t, surfLookup
        (ops.foldl (fun h op => update_surface_history h op.1 op.2.1 op.2.2) h)
        k = some (w, t) → w ≤ t := by
    intro ops
    induction ops with
    | nil => intro h hOK; exact hOK
    | cons op rest ih =>
        intro h hOK
        exact ih _ (surfOK_update h op.1 op.2.1 op.2.2 hOK)
  refine main ops [] ?_
  intro k w t hl
  simp [surfLookup, List.find?] at hl

/-- C9: in every surface-history state reachable by
`update_surface_history` calls from the empty dict, each entry satisfies
`wins ≤ total` (and wins is a natural number, hence non-negative), so
`get_surface_win_pct` always returns a value in [0, 1]. -/
theorem C9_surface_invariant (ops : List (String × String × Bool))
    (key : String × String) (w t : ℕ) (p s : String) :
    (surfLookup (surfReach ops) key = some (w, t) → w ≤ t) ∧
    0 ≤ get_surface_win_pct (surfReach ops) p s ∧
    get_surface_win_pct (surfReach ops) p s ≤ 1 := by
  refine ⟨surfOK_reach ops key w t, ?_⟩
  by_cases hu : s = "Unknown"
  · subst hu
    rw [pct_unknown]
    unfold DEFAULT_WIN_PCT
    norm_num
  · rcases hcase : surfLookup (surfReach ops) (p, s) with - | ⟨a, b⟩
    · rw [pct_absent _ _ _ hu hcase]
      unfold DEFAULT_WIN_PCT
      norm_num
    · have hab := surfOK_reach ops (p, s) a b hcase
      rw [pct_entry _ _ _ _ _ hu hcase]
      by_cases hb : b > 0
      · rw [if_pos hb]
        constructor
        · positivity
        · rw [div_le_one (by exact_mod_cast hb)]
          exact_mod_cast hab
      · rw [if_neg hb]
        unfold DEFAULT_WIN_PCT
        norm_num

theorem C9_witness :
    (1 : ℕ) ≤ 1 ∧
    get_surface_win_pct (surfReach [("A", "Hard", true)]) "A" "Hard" ≤ 1 :=
  ⟨(C9_surface_invariant [("A", "Hard", true)] ("A", "Hard") 1 1 "A" "Hard").1
      (by decide),
    (C9_surface_invariant [("A", "Hard", true)] ("A", "Hard") 1 1 "A" "Hard").2.2⟩

/-- C4: `get_surface_win_pct` returns `wins/total` when the entry is
present with positive total and the surface is not `"Unknown"`; it
returns the fixed default 0.5 when the surface is `"Unknown"` (whatever
the history holds), when the entry is absent, and when the entry's
total is zero. -/
theorem C4_surface_win_pct (h : SurfaceHistory) (player surface : String)
    (w t : ℕ) :
    (surface = "Unknown" → get_surface_win_pct h player surface = 1 / 2) ∧
    (surface ≠ "Unknown" → surfLookup h (player, surface) = some (w, t) →
      0 < t → get_surface_win_pct h player surface = (w : ℚ) / t) ∧
    (surface ≠ "Unknown" → surfLookup h (player, surface) = none →
      get_surface_win_pct h player surface = 1 / 2) ∧
    (surface ≠ "Unknown" → surfLookup h (player, surface) = some (w, 0) →
      get_surface_win_pct h player surface = 1 / 2) := by
  refine ⟨?_, ?_, ?_, ?_⟩
  · intro hu
    subst hu
    rw [pct_unknown]
    norm_num [DEFAULT_WIN_PCT]
  · intro hu hl ht
    rw [pct_entry _ _ _ _ _ hu hl, if_pos ht]
  · intro hu hl
    rw [pct_absent _ _ _ hu hl]
    norm_num [DEFAULT_WIN_PCT]
  · intro hu hl
    rw [pct_entry _ _ _ _ _ hu hl]
    norm_num [DEFAULT_WIN_PCT]

theorem C4_witness :
    get_surface_win_pct [(("A", "Hard"), (1, 2))] "A" "Unknown" = 1 / 2 ∧
    get_surface_win_pct [(("A", "Hard"), (1, 2))] "A" "Hard" = (1 : ℚ) / 2 ∧
    get_surface_win_pct [(("A", "Hard"), (1, 2))] "A" "Clay" = 1 / 2 ∧
    get_surface_win_pct [(("A", "Hard"), (0, 0))] "A" "Hard" = 1 / 2 :=
  ⟨(C4_surface_win_pct [(("A", "Hard"), (1, 2))] "A" "Unknown" 1 2).1 rfl,
    (C4_surface_win_pct [(("A", "Hard"), (1, 2))] "A" "Hard" 1 2).2.1
      (by decide) (by decide) (by decide),
    (C4_surface_win_pct [(("A", "Hard"), (1, 2))] "A" "Clay" 1 2).2.2.1
      (by decide) (by decide),
    (C4_surface_win_pct [(("A", "Hard"), (0, 0))] "A" "Hard" 0 0).2.2.2
      (by decide) (by decide)⟩

/-- C7: after processing the whole dataset the surface totals sum to
twice the number of matches and the head-to-head win counters sum to
the number of matches, and any entry present after a prefix of the pass
is still present, with counters at least as large, in the final
state. -/
theorem C7_monotonic_state_growth (df : List MatchRow) (k : ℕ)
    (skey pkey : String × String) (swt pwt : ℕ × ℕ) :
    surfTotalSum (add_features_surf df) = 2 * df.length ∧
    h2hWinSum (add_features_h2h df) = df.length ∧
    (surfLookup (processAll ((sortRows df).take k)).2.surf skey = some swt →
      ∃ wt', surfLookup (add_features_surf df) skey = some wt' ∧
        swt.1 ≤ wt'.1 ∧ swt.2 ≤ wt'.2) ∧
    (h2hLookup (processAll ((sortRows df).take k)).2.h2h pkey = some pwt →
      ∃ wt', h2hLookup (add_features_h2h df) pkey = some wt' ∧
        pwt.1 ≤ wt'.1 ∧ pwt.2 ≤ wt'.2) := by
  have hsums := processAux_state_sums initState (sortRows df)
  have hsplit : sortRows df = (sortRows df).take k ++ (sortRows df).drop k :=
    (List.take_append_drop k (sortRows df)).symm
  refine ⟨?_, ?_, ?_, ?_⟩
  · rw [add_features_surf, processAll, hsums.1, sortRows_length]
    simp [initState, surfTotalSum, Nat.mul_comm]
  · rw [add_features_h2h, processAll, hsums.2, sortRows_length]
    simp [initState, h2hWinSum]
  · intro hl
    rw [add_features_surf, processAll, hsplit, processAux_append]
    exact (processAux_state_mono (processAll ((sortRows df).take k)).2
      ((sortRows df).drop k) skey swt).1 hl
  · intro hl
    rw [add_features_h2h, processAll, hsplit, processAux_append]
    exact (processAux_state_mono (processAll ((sortRows df).take k)).2
      ((sortRows df).drop k) pkey pwt).2 hl

theorem C7_witness :
    (∃ wt', surfLookup (add_features_surf leakDF) ("A", "Hard") = some wt' ∧
      1 ≤ wt'.1 ∧ 1 ≤ wt'.2) ∧
    (∃ wt', h2hLookup (add_features_h2h leakDF) ("A", "B") = some wt' ∧
      1 ≤ wt'.1 ∧ 0 ≤ wt'.2) :=
  ⟨(C7_monotonic_state_growth leakDF 1 ("A", "Hard") ("A", "B") (1, 1)
      (1, 0)).2.2.1 (by
        norm_num +decide [processAll, processAux, stepRow, winnerIndex,
          sortRows, sortRowsIdx, stableSort, insertLe, rowLe, leakDF,
          h2hBump, h2hLookup, pairKey, surfLookup, update_surface_history,
          List.find?, List.enum, surfaceOf, initState]),
    (C7_monotonic_state_growth leakDF 1 ("A", "Hard") ("A", "B") (1, 1)
      (1, 0)).2.2.2 (by
        norm_num +decide [processAll, processAux, stepRow, winnerIndex,
          sortRows, sortRowsIdx, stableSort, insertLe, rowLe, leakDF,
          h2hBump, h2hLookup, pairKey, surfLookup, update_surface_history,
          List.find?, List.enum, surfaceOf, initState])⟩

theorem insertLe_eq_cons {le : α → α → Bool} {x : α} {l : List α}
    (h : ∀ z ∈ l, le x z = true) : insertLe le x l = x :: l := by
  cases l with
  | nil => rfl
  | cons y ys => simp [insertLe, h y (by simp)]

theorem filter_insertLe_neg {le : α → α → Bool} {q : α → Bool} {x : α}
    {l : List α} (hx : q x = false) :
    (insertLe le x l).filter q = l.filter q := by
  induction l with
  | nil => simp [insertLe, hx]
  | cons y ys ih =>
      simp only [insertLe]
      split
      · simp [List.filter, hx]
      · simp only [List.filter]
        cases hqy : q y <;> simp [hqy, ih]

theorem insertLe_filter_pos {le : α → α → Bool} {q : α → Bool} {x : α}
    {l : List α}
    (htrans : ∀ a b c, le a b = true → le b c = true → le a c = true)
    (hx : q x = true) (hl : l.Pairwise fun a b => le a b = true) :
    insertLe le x (l.filter q) = (insertLe le x l).filter q := by
  induction l with
  | nil => simp [insertLe, hx]
  | cons y ys ih =>
      rcases List.pairwise_cons.mp hl with ⟨hy, hys⟩
      by_cases hxy : le x y = true
      · cases hqy : q y with
        | true => simp [List.filter_cons, hqy, hx, insertLe, hxy]
        | false =>
            have hstep : insertLe le x (List.filter q ys) = x :: List.filter q ys := by
              refine insertLe_eq_cons ?_
              intro z hz
              exact htrans x y z hxy (hy z (List.mem_of_mem_filter hz))
            simp [List.filter_cons, hqy, hx, insertLe, hxy, hstep]
      · cases hqy : q y with
        | true => simp [List.filter_cons, hqy, hx, insertLe, hxy, ih hys]
        | false => simp [List.filter_cons, hqy, hx, insertLe, hxy, ih hys]

theorem stableSort_filter {le : α → α → Bool}
    (htot : ∀ a b, le a b = true ∨ le b a = true)
    (htrans : ∀ a b c, le a b = true → le b c = true → le a c = true)
    (q : α → Bool) (l : List α) :
    stableSort le (l.filter q) = (stableSort le l).filter q := by
  induction l with
  | nil => simp [stableSort]
  | cons x xs ih =>
      cases hqx : q x with
      | true =>
          rw [List.filter_cons_of_pos hqx]
          simp only [stableSort]
          rw [ih]
          exact insertLe_filter_pos htrans hqx (pairwise_stableSort htot htrans xs)
      | false =>
          rw [List.filter_cons_of_neg (by simp [hqx])]
          simp only [stableSort]
          rw [ih, filter_insertLe_neg hqx]

theorem sortRows_perm (df : List MatchRow) : (sortRows df).Perm df := by
  unfold sortRows sortRowsIdx
  have h := (stableSort_perm rowLe df.enum).map Prod.snd
  rwa [List.enum_map_snd] at h

theorem mem_mkEvents {rows : List MatchRow} {e : PlayerEvent}
    (he : e ∈ mkEvents rows) :
    ∃ r, rows[e.match_index]? = some r ∧
      (e = p1Event e.match_index r ∨ e = p2Event e.match_index r) := by
  rcases List.mem_append.mp he with h | h <;>
    rcases List.mem_map.mp h with ⟨⟨i, r⟩, hmem, rfl⟩ <;>
    rw [List.mk_mem_enum_iff_getElem?] at hmem
  · exact ⟨r, hmem, Or.inl rfl⟩
  · exact ⟨r, hmem, Or.inr rfl⟩

theorem mkEvents_nodup (rows : List MatchRow) : (mkEvents rows).Nodup := by
  have henum : rows.enum.Nodup :=
    List.Nodup.of_map Prod.fst (by simpa using List.nodup_enum_map_fst rows)
  have h1 : ((rows.enum.map fun p => p1Event p.1 p.2)).Nodup := by
    refine List.Nodup.map_on ?_ henum
    rintro ⟨i, r⟩ hi ⟨j, q⟩ hj hf
    have hij : i = j := congrArg PlayerEvent.match_index hf
    subst hij
    rw [List.mk_mem_enum_iff_getElem?] at hi hj
    rw [hi] at hj
    have hq : r = q := by simpa using hj
    rw [hq]
  have h2 : ((rows.enum.map fun p => p2Event p.1 p.2)).Nodup := by
    refine List.Nodup.map_on ?_ henum
    rintro ⟨i, r⟩ hi ⟨j, q⟩ hj hf
    have hij : i = j := congrArg PlayerEvent.match_index hf
    subst hij
    rw [List.mk_mem_enum_iff_getElem?] at hi hj
    rw [hi] at hj
    have hq : r = q := by simpa using hj
    rw [hq]
  refine List.Nodup.append h1 h2 ?_
  intro e he1 he2
  rcases List.mem_map.mp he1 with ⟨x, -, hx⟩
  rcases List.mem_map.mp he2 with ⟨y, -, hy⟩
  have hb1 : e.side1 = true := by
    rw [← hx]
    rfl
  have hb2 : e.side1 = false := by
    rw [← hy]
    rfl
  rw [hb1] at hb2
  exact absurd hb2 (by decide)

theorem rows_date_mono {rows : List MatchRow}
    (hd : rows.Pairwise fun a b => a.tourney_date ≤ b.tourney_date)
    {i j : ℕ} {ri rj : MatchRow} (hij : i < j)
    (hi : rows[i]? = some ri) (hj : rows[j]? = some rj) :
    ri.tourney_date ≤ rj.tourney_date := by
  rcases List.getElem?_eq_some_iff.mp hi with ⟨hi', hival⟩
  rcases List.getElem?_eq_some_iff.mp hj with ⟨hj', hjval⟩
  have := List.pairwise_iff_getElem.mp hd i j hi' hj' hij
  rwa [hival, hjval] at this

theorem event_date_eq {e : PlayerEvent} {r : MatchRow}
    (h : e = p1Event e.match_index r ∨ e = p2Event e.match_index r) :
    e.date = r.tourney_date := by
  rcases h with h | h <;> rw [h] <;> rfl

/-- Two distinct same-player events in `eventLe` order come from rows
in source-index order, provided every row has two distinct players. -/
theorem event_pair_idx_lt {rows : List MatchRow} {p : String}
    (hd : rows.Pairwise fun a b => a.tourney_date ≤ b.tourney_date)
    (hne : ∀ row ∈ rows, row.p1_name ≠ row.p2_name)
    {x y : PlayerEvent}
    (hxm : x ∈ mkEvents rows) (hym : y ∈ mkEvents rows)
    (hxp : x.player = p) (hyp : y.player = p)
    (hle : eventLe x y = true) (hxy : x ≠ y) :
    x.match_index < y.match_index := by
  rcases mem_mkEvents hxm with ⟨rx, hrx, hxshape⟩
  rcases mem_mkEvents hym with ⟨ry, hry, hyshape⟩
  have hidxne : x.match_index ≠ y.match_index := by
    intro heq
    rw [heq, hry] at hrx
    have hq : ry = rx := by simpa using hrx
    subst hq
    rcases hxshape with hx | hx <;> rcases hyshape with hy | hy
    · exact hxy (by rw [hx, hy, heq])
    · refine hne ry (List.getElem?_mem hry) ?_
      have e1 : ry.p1_name = p := by
        rw [← hxp, hx]
        rfl
      have e2 : ry.p2_name = p := by
        rw [← hyp, hy]
        rfl
      rw [e1, e2]
    · refine hne ry (List.getElem?_mem hry) ?_
      have e1 : ry.p2_name = p := by
        rw [← hxp, hx]
        rfl
      have e2 : ry.p1_name = p := by
        rw [← hyp, hy]
        rfl
      rw [e2, e1]
    · exact hxy (by rw [hx, hy, heq])
  rcases Nat.lt_or_ge x.match_index y.match_index with h | h
  · exact h
  have hji : y.match_index < x.match_index := lt_of_le_of_ne h (Ne.symm hidxne)
  exfalso
  have hplayer : x.player = y.player := by rw [hxp, hyp]
  rcases (eventLe_iff _ _).mp hle with hplt | ⟨-, hrest⟩
  · rw [hplayer] at hplt
    exact absurd hplt (lt_irrefl _)
  have hdatele : y.date ≤ x.date := by
    rw [event_date_eq hxshape, event_date_eq hyshape]
    exact rows_date_mono hd hji hry hrx
  rcases hrest with hdlt | ⟨-, hile⟩
  · exact absurd hdlt (not_lt.mpr hdatele)
  · exact absurd hile (not_le.mpr hji)

/-- Within one player's events, the sorted order of
`compute_rolling_features` is the order of the source row indices,
i.e. the assembler's own chronological ordering. -/
theorem filter_player_idx_mono (rows : List MatchRow) (p : String)
    (hd : rows.Pairwise fun a b => a.tourney_date ≤ b.tourney_date)
    (hne : ∀ row ∈ rows, row.p1_name ≠ row.p2_name) :
    ((sortEvents (mkEvents rows)).filter fun e =>
      decide (e.player = p)).Pairwise
      fun a b => a.match_index < b.match_index := by
  have hperm := stableSort_perm eventLe (mkEvents rows)
  have hPle := (pairwise_stableSort eventLe_total eventLe_trans
    (mkEvents rows)).filter (fun e => decide (e.player = p))
  have hnd : ((sortEvents (mkEvents rows)).filter fun e =>
      decide (e.player = p)).Nodup :=
    List.Nodup.filter _ (hperm.nodup_iff.mpr (mkEvents_nodup rows))
  rw [List.pairwise_iff_getElem] at hPle ⊢
  intro i j hi hj hij
  have hle := hPle i j hi hj hij
  set fl := (sortEvents (mkEvents rows)).filter fun e =>
    decide (e.player = p) with hfl
  have hxy : fl[i] ≠ fl[j] := fun hh =>
    absurd ((@List.Nodup.getElem_inj_iff _ _ hnd i hi j hj).mp hh)
      (Nat.ne_of_lt hij)
  have hxin : fl[i] ∈ fl := List.getElem_mem hi
  have hyin : fl[j] ∈ fl := List.getElem_mem hj
  rcases List.mem_filter.mp hxin with ⟨hxs, hxp⟩
  rcases List.mem_filter.mp hyin with ⟨hys, hyp⟩
  exact event_pair_idx_lt hd hne (mem_stableSort.mp hxs) (mem_stableSort.mp hys)
    (by simpa using hxp) (by simpa using hyp) hle hxy

/-- C2 counterexample: two distinct same-date orders of the same
two-match dataset both satisfy the contract of the unstable
single-column `sort_values` (`DateSorted`), so the sort does not break
date ties by original ingestion index; and the streaming feature triple
the pass records for one and the same match (the second input row)
differs between the two admissible orders, so same-day matches do not
resolve deterministically. -/
theorem C2_counterexample :
    DateSorted tieDF tieDF ∧
    DateSorted tieDF tieSwap ∧
    tieDF ≠ tieSwap ∧
    tieDF[1]? = tieSwap[0]? ∧
    (processAll tieDF).1[1]? = some (1, 0, 1) ∧
    (processAll tieSwap).1[0]? = some (1 / 2, 1 / 2, 0) ∧
    (processAll tieDF).1[1]? ≠ (processAll tieSwap).1[0]? := by
  refine ⟨⟨List.Perm.refl _, by decide⟩, ⟨by decide, by decide⟩,
    by decide, by decide, ?_, ?_, ?_⟩ <;>
    norm_num +decide [processAll, processAux, stepRow, get_surface_win_pct,
      surfLookup, update_surface_history, h2hLookup, pairKey, h2hBump,
      initState, surfaceOf, winnerIndex, DEFAULT_WIN_PCT, tieDF, tieSwap]

/-- C2 (amended): for every admissible result `out` of the unstable
single-column date sort, the assembler processes rows in non-decreasing
date order (same-date order chosen by the quicksort, not by ingestion
index); the rolling tracker's multi-column sort is a stable lexsort on
the `(player, date, match_index)` key, where each event's `match_index`
is the position of its source row in the assembler's sorted frame; and,
per player, that event order coincides with the assembler's own
processing order — whichever same-date order the quicksort realized. -/
theorem C2_ordering_amended (df out : List MatchRow) (p : String)
    (hout : DateSorted df out)
    (hne : ∀ row ∈ df, row.p1_name ≠ row.p2_name) :
    out.Pairwise (fun a b => a.tourney_date ≤ b.tourney_date) ∧
    (sortEvents (mkEvents out)).Perm (mkEvents out) ∧
    (sortEvents (mkEvents out)).Pairwise (fun a b => eventLe a b = true) ∧
    (∀ e ∈ mkEvents out, ∃ r, out[e.match_index]? = some r ∧
      (e = p1Event e.match_index r ∨ e = p2Event e.match_index r)) ∧
    ((sortEvents (mkEvents out)).filter fun e =>
      decide (e.player = p)).Pairwise
      (fun a b => a.match_index < b.match_index) :=
  ⟨hout.2,
    stableSort_perm eventLe (mkEvents out),
    pairwise_stableSort eventLe_total eventLe_trans (mkEvents out),
    fun _ he => mem_mkEvents he,
    filter_player_idx_mono out p hout.2
      (fun row hr => hne row (hout.1.subset hr))⟩

theorem C2_witness :
    tieSwap.Pairwise (fun a b => a.tourney_date ≤ b.tourney_date) ∧
    (sortEvents (mkEvents tieSwap)).Perm (mkEvents tieSwap) ∧
    (sortEvents (mkEvents tieSwap)).Pairwise
      (fun a b => eventLe a b = true) ∧
    (∀ e ∈ mkEvents tieSwap, ∃ r, tieSwap[e.match_index]? = some r ∧
      (e = p1Event e.match_index r ∨ e = p2Event e.match_index r)) ∧
    ((sortEvents (mkEvents tieSwap)).filter fun e =>
      decide (e.player = "A")).Pairwise
      (fun a b => a.match_index < b.match_index) :=
  C2_ordering_amended tieDF tieSwap "A" ⟨by decide, by decide⟩ (by decide)

theorem pairKey_comm (a b : String) : pairKey a b = pairKey b a := by
  unfold pairKey
  rcases le_total a b with h | h
  · by_cases hba : b ≤ a
    · rw [if_pos h, if_pos hba, le_antisymm h hba]
    · rw [if_pos h, if_neg hba]
  · by_cases hab : a ≤ b
    · rw [if_pos hab, if_pos h, le_antisymm hab h]
    · rw [if_neg hab, if_pos h]

theorem pairKey_cases (a b : String) :
    pairKey a b = (a, b) ∨ pairKey a b = (b, a) := by
  unfold pairKey
  split
  · exact Or.inl rfl
  · exact Or.inr rfl

theorem winnerName_cases (r : MatchRow) :
    winnerName r = r.p1_name ∨ winnerName r = r.p2_name := by
  unfold winnerName
  split
  · exact Or.inl rfl
  · exact Or.inr rfl

theorem winnerIndex_dichotomy (r : MatchRow) :
    winnerIndex r = 0 ∨ winnerIndex r = 1 := by
  by_cases hcond : ((decide (r.target = 1)) = true ∧
      r.p1_name = (pairKey r.p1_name r.p2_name).1) ∨
      (¬ (decide (r.target = 1)) = true ∧
        r.p1_name ≠ (pairKey r.p1_name r.p2_name).1)
  · refine Or.inl ?_
    show (if ((decide (r.target = 1)) = true ∧
        r.p1_name = (pairKey r.p1_name r.p2_name).1) ∨
        (¬ (decide (r.target = 1)) = true ∧
          r.p1_name ≠ (pairKey r.p1_name r.p2_name).1)
      then (0 : ℕ) else 1) = 0
    rw [if_pos hcond]
  · refine Or.inr ?_
    show (if ((decide (r.target = 1)) = true ∧
        r.p1_name = (pairKey r.p1_name r.p2_name).1) ∨
        (¬ (decide (r.target = 1)) = true ∧
          r.p1_name ≠ (pairKey r.p1_name r.p2_name).1)
      then (0 : ℕ) else 1) = 1
    rw [if_neg hcond]

theorem winnerIndex_spec (r : MatchRow) (hner : r.p1_name ≠ r.p2_name) :
    (winnerIndex r = 0 ↔
      winnerName r = (pairKey r.p1_name r.p2_name).1) ∧
    (winnerIndex r = 1 ↔
      winnerName r = (pairKey r.p1_name r.p2_name).2) := by
  unfold winnerIndex winnerName pairKey
  by_cases ht : r.target = 1 <;> by_cases hp : r.p1_name ≤ r.p2_name <;>
    simp [ht, hp, hner, Ne.symm hner]

theorem pairCount_append (l : List MatchRow) (r : MatchRow)
    (k : String × String) :
    pairCount (l ++ [r]) k =
      pairCount l k +
        (if pairKey r.p1_name r.p2_name = k then 1 else 0) := by
  simp only [pairCount, List.filter_append, List.length_append]
  by_cases hp : pairKey r.p1_name r.p2_name = k <;> simp [List.filter, hp]

theorem pairWins_append (l : List MatchRow) (r : MatchRow)
    (k : String × String) (a : String) :
    pairWins (l ++ [r]) k a =
      pairWins l k a +
        (if pairKey r.p1_name r.p2_name = k ∧ winnerName r = a
         then 1 else 0) := by
  simp only [pairWins, List.filter_append, List.length_append]
  by_cases hp : pairKey r.p1_name r.p2_name = k ∧ winnerName r = a <;>
    simp [List.filter, hp]

theorem pairWins_zero (l : List MatchRow) (k : String × String) (a : String)
    (hc : pairCount l k = 0) : pairWins l k a = 0 := by
  unfold pairCount at hc
  unfold pairWins
  rw [List.length_eq_zero] at hc ⊢
  rw [List.filter_eq_nil_iff] at hc ⊢
  intro row hrow
  have := hc row hrow
  simp only [decide_eq_true_eq] at this ⊢
  intro hcontra
  exact this hcontra.1

theorem winnerIndex_bump_fst (r : MatchRow) (hner : r.p1_name ≠ r.p2_name)
    (x y : String) (hk : (x, y) = pairKey r.p1_name r.p2_name) :
    (if winnerIndex r = 0 then 1 else 0) =
      (if winnerName r = x then 1 else 0) := by
  have hx : x = (pairKey r.p1_name r.p2_name).1 := by rw [← hk]
  by_cases hw : winnerName r = x
  · rw [if_pos hw, if_pos (((winnerIndex_spec r hner).1).mpr (hx ▸ hw))]
  · rw [if_neg hw]
    have : winnerIndex r ≠ 0 := fun h0 =>
      hw (hx ▸ ((winnerIndex_spec r hner).1).mp h0)
    rw [if_neg this]

theorem winnerIndex_bump_snd (r : MatchRow) (hner : r.p1_name ≠ r.p2_name)
    (x y : String) (hk : (x, y) = pairKey r.p1_name r.p2_name) :
    (if winnerIndex r = 0 then 0 else 1) =
      (if winnerName r = y then 1 else 0) := by
  have hy : y = (pairKey r.p1_name r.p2_name).2 := by rw [← hk]
  by_cases hw : winnerName r = y
  · have h1 : winnerIndex r = 1 := ((winnerIndex_spec r hner).2).mpr (hy ▸ hw)
    rw [if_pos hw, if_neg (by rw [h1]; exact one_ne_zero)]
  · rw [if_neg hw]
    have h1 : winnerIndex r ≠ 1 := fun h1 =>
      hw (hy ▸ ((winnerIndex_spec r hner).2).mp h1)
    have h0 : winnerIndex r = 0 := by
      rcases winnerIndex_dichotomy r with h | h
      · exact h
      · exact absurd h h1
    rw [if_pos h0]

theorem h2h_state_spec (l : List MatchRow)
    (hne : ∀ row ∈ l, row.p1_name ≠ row.p2_name) (x y : String) :
    h2hLookup (processAux initState l).2.h2h (x, y) =
      if pairCount l (x, y) = 0 then none
      else some (pairWins l (x, y) x, pairWins l (x, y) y) := by
  induction l using List.reverseRecOn with
  | nil =>
      simp [processAux, initState, h2hLookup, List.find?, pairCount, pairWins,
        List.filter]
  | append_singleton l' r ih =>
      have hne' : ∀ row ∈ l', row.p1_name ≠ row.p2_name := fun row hr =>
        hne row (by simp [hr])
      have hner : r.p1_name ≠ r.p2_name := hne r (by simp)
      have hstate : (processAux initState (l' ++ [r])).2 =
          (stepRow (processAux initState l').2 r).2 := by
        rw [processAux_append]
        simp [processAux]
      rw [hstate]
      have hh2h : (stepRow (processAux initState l').2 r).2.h2h =
          h2hBump (processAux initState l').2.h2h
            (pairKey r.p1_name r.p2_name) (winnerIndex r) := rfl
      rw [hh2h, pairCount_append, pairWins_append, pairWins_append]
      by_cases hk : (x, y) = pairKey r.p1_name r.p2_name
      · rw [← hk, h2hLookup_bump_self, ih hne']
        simp only [eq_self_iff_true, true_and, if_true]
        rw [if_neg (by omega : ¬ pairCount l' (x, y) + 1 = 0)]
        by_cases hc : pairCount l' (x, y) = 0
        · rw [if_pos hc, pairWins_zero _ _ _ hc, pairWins_zero _ _ _ hc]
          rw [winnerIndex_bump_fst r hner x y hk,
            winnerIndex_bump_snd r hner x y hk]
          simp
        · rw [if_neg hc]
          rw [winnerIndex_bump_fst r hner x y hk,
            winnerIndex_bump_snd r hner x y hk]
          simp
      · have hkr : ¬ pairKey r.p1_name r.p2_name = (x, y) := fun hh =>
          hk hh.symm
        rw [h2hLookup_bump_ne _ _ _ _ hk, ih hne']
        simp [hkr]

theorem winsAgainst_pairWins (l : List MatchRow) (a b : String) :
    winsAgainst l a b = pairWins l (pairKey a b) a := rfl

theorem stepRow_diff (st : StreamState) (row : MatchRow) :
    (stepRow st row).1.2.2 =
      match h2hLookup st.h2h (pairKey row.p1_name row.p2_name) with
      | some (wa, wb) =>
          if row.p1_name = (pairKey row.p1_name row.p2_name).1
          then (wa : ℤ) - wb else (wb : ℤ) - wa
      | none => 0 := rfl

theorem diff_formula (l : List MatchRow) (row : MatchRow)
    (hne : ∀ q ∈ l, q.p1_name ≠ q.p2_name)
    (hner : row.p1_name ≠ row.p2_name) :
    (stepRow (processAux initState l).2 row).1.2.2 =
      (winsAgainst l row.p1_name row.p2_name : ℤ) -
        winsAgainst l row.p2_name row.p1_name := by
  rw [stepRow_diff, winsAgainst_pairWins, winsAgainst_pairWins,
    pairKey_comm row.p2_name row.p1_name]
  rcases pairKey_cases row.p1_name row.p2_name with hc | hc <;> rw [hc]
  · rw [h2h_state_spec l hne row.p1_name row.p2_name]
    by_cases hcount : pairCount l (row.p1_name, row.p2_name) = 0
    · rw [if_pos hcount, pairWins_zero _ _ _ hcount,
        pairWins_zero _ _ _ hcount]
      simp
    · rw [if_neg hcount]
      simp
  · rw [h2h_state_spec l hne row.p2_name row.p1_name]
    by_cases hcount : pairCount l (row.p2_name, row.p1_name) = 0
    · rw [if_pos hcount, pairWins_zero _ _ _ hcount,
        pairWins_zero _ _ _ hcount]
      simp
    · rw [if_neg hcount]
      simp [hner]

/-- C5: the recorded `h2h_diff` of every match equals the number of
player 1's strictly prior wins against player 2 minus player 2's
strictly prior wins against player 1 (0 when the pair has no prior
meeting), and the final head-to-head dict holds, for every canonical
pair key, exactly the pair's win counts — each processed match having
incremented precisely the winner's canonical slot. -/
theorem C5_h2h_diff (df : List MatchRow) (k : ℕ)
    (hne : ∀ row ∈ df, row.p1_name ≠ row.p2_name) :
    ((add_features_stream df)[k]?.map fun f => f.2.2) =
      (((sortRows df)[k]?).map fun row =>
        (winsAgainst ((sortRows df).take k) row.p1_name row.p2_name : ℤ) -
          winsAgainst ((sortRows df).take k) row.p2_name row.p1_name) ∧
    (∀ key : String × String,
      h2hLookup (add_features_h2h df) key =
        if pairCount (sortRows df) key = 0 then none
        else some (pairWins (sortRows df) key key.1,
          pairWins (sortRows df) key key.2)) := by
  have hneS : ∀ row ∈ sortRows df, row.p1_name ≠ row.p2_name := fun row hr =>
    hne row ((sortRows_perm df).subset hr)
  constructor
  · rw [add_features_stream, processAll, processAux_getElem?, Option.map_map]
    rcases hrow : (sortRows df)[k]? with - | row
    · rfl
    · have hneT : ∀ q ∈ (sortRows df).take k, q.p1_name ≠ q.p2_name :=
        fun q hq => hneS q (List.mem_of_mem_take hq)
      have hner : row.p1_name ≠ row.p2_name :=
        hneS row (List.getElem?_mem hrow)
      have hd := diff_formula ((sortRows df).take k) row hneT hner
      show some ((stepRow (processAux initState
          ((sortRows df).take k)).2 row).1.2.2) = _
      rw [hd]
      rfl
  · intro key
    rw [add_features_h2h, processAll]
    have := h2h_state_spec (sortRows df) hneS key.1 key.2
    rwa [Prod.mk.eta] at this

theorem C5_witness :
    ((add_features_stream leakDF)[2]?.map fun f => f.2.2) =
      (((sortRows leakDF)[2]?).map fun row =>
        (winsAgainst ((sortRows leakDF).take 2) row.p1_name row.p2_name : ℤ) -
          winsAgainst ((sortRows leakDF).take 2) row.p2_name
            row.p1_name) :=
  (C5_h2h_diff leakDF 2 (by decide)).1

theorem find?_rollingColAux (s : List PlayerEvent) (m : Metric) (W : ℕ)
    (key : PlayerEvent → Bool) (j : ℕ) (t : List PlayerEvent) :
    (rollingColAux s m W j t).find? (fun p => key p.1) =
      (t.find? key).map fun e =>
        (e, rollingRawAt s
          (j + (t.takeWhile fun x => ! key x).length) e m W) := by
  induction t generalizing j with
  | nil => rfl
  | cons e rest ih =>
      by_cases hk : key e = true
      · simp [rollingColAux, List.find?_cons, hk, List.takeWhile_cons]
      · have hkf : key e = false := by
          cases hke : key e
          · rfl
          · exact absurd hke hk
        simp only [rollingColAux, List.find?_cons, List.takeWhile_cons, hkf,
          Bool.not_false, reduceIte, List.length_cons]
        rw [ih (j + 1)]
        have harith : j + ((List.takeWhile (fun x => !key x) rest).length + 1) =
            (j + 1) + (List.takeWhile (fun x => !key x) rest).length := by
          omega
        simp only [harith]

theorem find?_map_snd (g : Option ℚ → Option ℚ)
    (col : List (PlayerEvent × Option ℚ)) (key : PlayerEvent → Bool) :
    ((col.map fun p => (p.1, g p.2)).find? fun p => key p.1) =
      (col.find? fun p => key p.1).map fun p => (p.1, g p.2) := by
  induction col with
  | nil => rfl
  | cons c rest ih =>
      by_cases hk : key c.1 = true
      · simp [List.find?_cons, hk]
      · have hkf : key c.1 = false := by
          cases hke : key c.1
          · rfl
          · exact absurd hke hk
        simp [List.find?_cons, hkf, ih]

theorem rollingCol_find? (es : List PlayerEvent) (m : Metric) (W i : ℕ)
    (r : Bool) :
    ((rollingCol es m W).find? fun p =>
        decide (p.1.match_index = i ∧ p.1.side1 = r)) =
      ((sortEvents es).find? fun e =>
          decide (e.match_index = i ∧ e.side1 = r)).map
        fun e => (e, rollingRawAt (sortEvents es)
          (((sortEvents es).takeWhile fun x =>
            ! decide (x.match_index = i ∧ x.side1 = r)).length) e m W) := by
  unfold rollingCol
  have h := find?_rollingColAux (sortEvents es) m W
    (fun e => decide (e.match_index = i ∧ e.side1 = r)) 0 (sortEvents es)
  simpa using h

theorem featLookup_fillCol (fill : Option ℚ)
    (col : List (PlayerEvent × Option ℚ)) (i : ℕ) (r : Bool) :
    featLookup (fillCol fill col) i r =
      match col.find? (fun p =>
          decide (p.1.match_index = i ∧ p.1.side1 = r)) with
      | some p => fillCell fill p.2
      | none => none := by
  unfold featLookup fillCol
  rw [find?_map_snd (fillCell fill) col
    (fun e => decide (e.match_index = i ∧ e.side1 = r))]
  rcases hf : col.find? (fun p => decide (p.1.match_index = i ∧ p.1.side1 = r))
    with - | p <;> rw [hf] <;> rfl

theorem recentRaw_char (rows : List MatchRow) (r : Bool) (m : Metric)
    (W i : ℕ) :
    recentRaw rows r m W i =
      match (sortEvents (mkEvents rows)).find?
          (fun e => decide (e.match_index = i ∧ e.side1 = r)) with
      | some e => rollingRawAt (sortEvents (mkEvents rows))
          (((sortEvents (mkEvents rows)).takeWhile fun x =>
            ! decide (x.match_index = i ∧ x.side1 = r)).length) e m W
      | none => none := by
  unfold recentRaw featLookup
  rw [rollingCol_find?]
  rcases hf : (sortEvents (mkEvents rows)).find?
      (fun e => decide (e.match_index = i ∧ e.side1 = r)) with - | e <;>
    rw [hf] <;> rfl

theorem recentFeature_char (rows : List MatchRow) (r : Bool) (m : Metric)
    (W i : ℕ) :
    recentFeature rows r m W i =
      match (sortEvents (mkEvents rows)).find?
          (fun e => decide (e.match_index = i ∧ e.side1 = r)) with
      | some e =>
          match rollingRawAt (sortEvents (mkEvents rows))
              (((sortEvents (mkEvents rows)).takeWhile fun x =>
                ! decide (x.match_index = i ∧ x.side1 = r)).length) e m W with
          | some v => some v
          | none =>
              match m with
              | .won => some DEFAULT_WIN_PCT
              | _ => colMean (rollingCol (mkEvents rows) m W)
      | none => none := by
  cases m <;>
  · unfold recentFeature filledCol
    dsimp only
    rw [featLookup_fillCol, rollingCol_find?]
    rcases hf : (sortEvents (mkEvents rows)).find?
        (fun e => decide (e.match_index = i ∧ e.side1 = r)) with - | e
    · simp only [hf, Option.map_none']
    · simp only [hf, Option.map_some']
      rcases hv : rollingRawAt (sortEvents (mkEvents rows))
          (((sortEvents (mkEvents rows)).takeWhile fun x =>
            ! decide (x.match_index = i ∧ x.side1 = r)).length) e _ W
        with - | v <;> rw [hv] <;> rfl

theorem take_takeWhile_length (l : List α) (p : α → Bool) :
    l.take (l.takeWhile p).length = l.takeWhile p := by
  induction l with
  | nil => rfl
  | cons x xs ih =>
      by_cases hp : p x = true
      · simp [List.takeWhile_cons, hp, List.take, ih]
      · have hpf : p x = false := by
          cases hpe : p x
          · rfl
          · exact absurd hpe hp
        simp [List.takeWhile_cons, hpf]

theorem takeWhile_filter_comm (p q : α → Bool) (l : List α)
    (h : ∀ x ∈ l, p x = false → q x = true) :
    (l.filter q).takeWhile p = (l.takeWhile p).filter q := by
  induction l with
  | nil => rfl
  | cons x xs ih =>
      have ih' := ih fun z hz hpz => h z (by simp [hz]) hpz
      by_cases hp : p x = true
      · by_cases hq : q x = true
        · simp [List.filter_cons, List.takeWhile_cons, hp, hq, ih']
        · have hqf : q x = false := by
            cases hqe : q x
            · rfl
            · exact absurd hqe hq
          simp [List.filter_cons, List.takeWhile_cons, hp, hqf, ih']
      · have hpf : p x = false := by
          cases hpe : p x
          · rfl
          · exact absurd hpe hp
        have hq := h x (by simp) hpf
        simp [List.filter_cons, List.takeWhile_cons, hpf, hq]

theorem find?_filter_of_key (key q : α → Bool) (l : List α)
    (h : ∀ x ∈ l, key x = true → q x = true) :
    (l.filter q).find? key = l.find? key := by
  induction l with
  | nil => rfl
  | cons x xs ih =>
      have ih' := ih fun z hz hk => h z (by simp [hz]) hk
      by_cases hk : key x = true
      · have hq := h x (by simp) hk
        simp [List.filter_cons, hq, List.find?_cons, hk]
      · have hkf : key x = false := by
          cases hke : key x
          · rfl
          · exact absurd hke hk
        by_cases hq : q x = true
        · simp [List.filter_cons, hq, List.find?_cons, hkf, ih']
        · have hqf : q x = false := by
            cases hqe : q x
            · rfl
            · exact absurd hqe hq
          simp [List.filter_cons, hqf, List.find?_cons, hkf, ih']

theorem filter_filter_of_imp (pl q : α → Bool) (l : List α)
    (h : ∀ x ∈ l, pl x = true → q x = true) :
    (l.filter q).filter pl = l.filter pl := by
  induction l with
  | nil => rfl
  | cons x xs ih =>
      have ih' := ih fun z hz hp => h z (by simp [hz]) hp
      by_cases hp : pl x = true
      · have hq := h x (by simp) hp
        simp [List.filter_cons, hq, hp, ih']
      · have hpf : pl x = false := by
          cases hpe : pl x
          · rfl
          · exact absurd hpe hp
        by_cases hq : q x = true
        · simp [List.filter_cons, hq, hpf, ih']
        · have hqf : q x = false := by
            cases hqe : q x
            · rfl
            · exact absurd hqe hq
          simp [List.filter_cons, hqf, hpf, ih']

theorem map_enumFrom_filter (f : ℕ → MatchRow → PlayerEvent)
    (hf : ∀ i r, (f i r).match_index = i) (n : ℕ) :
    ∀ (k : ℕ) (l : List MatchRow),
    ((List.enumFrom k l).map fun p => f p.1 p.2).filter
        (fun e => decide (e.match_index < n)) =
      (List.enumFrom k (l.take (n - k))).map fun p => f p.1 p.2 := by
  intro k l
  induction l generalizing k with
  | nil => simp
  | cons x xs ih =>
      simp only [List.enumFrom, List.map_cons]
      by_cases hk : k < n
      · rw [List.filter_cons_of_pos (by simp [hf, hk])]
        have hn : n - k = (n - (k + 1)) + 1 := by omega
        rw [hn, List.take_succ_cons]
        simp only [List.enumFrom, List.map_cons]
        rw [ih (k + 1)]
      · rw [List.filter_cons_of_neg (by simp [hf, hk])]
        have hn : n - k = 0 := by omega
        have hn1 : n - (k + 1) = 0 := by omega
        rw [hn, ih (k + 1), hn1]
        simp

theorem mkEvents_take (rows : List MatchRow) (n : ℕ) :
    mkEvents (rows.take n) =
      (mkEvents rows).filter fun e => decide (e.match_index < n) := by
  unfold mkEvents
  rw [List.filter_append]
  have h1 := map_enumFrom_filter (fun i r => p1Event i r) (fun i r => rfl) n 0 rows
  have h2 := map_enumFrom_filter (fun i r => p2Event i r) (fun i r => rfl) n 0 rows
  simp only [Nat.sub_zero] at h1 h2
  simp only [List.enum]
  rw [← h1, ← h2]

theorem find?_eq_head_dropWhile (p : α → Bool) (l : List α) :
    l.find? p = (l.dropWhile fun x => ! p x).head? := by
  induction l with
  | nil => rfl
  | cons x xs ih =>
      by_cases hp : p x = true
      · simp [List.find?_cons, hp, List.dropWhile_cons]
      · have hpf : p x = false := by
          cases hpe : p x
          · rfl
          · exact absurd hpe hp
        simp [List.find?_cons, hpf, List.dropWhile_cons, ih]

theorem sortEvents_take (rows : List MatchRow) (n : ℕ) :
    sortEvents (mkEvents ((rows).take n)) =
      (sortEvents (mkEvents (rows))).filter
        fun e => decide (e.match_index < n) := by
  unfold sortEvents
  rw [mkEvents_take, stableSort_filter eventLe_total eventLe_trans]

theorem prior_q_of_same_player (rows : List MatchRow)
    (hd : rows.Pairwise fun a b => a.tourney_date ≤ b.tourney_date)
    (k : ℕ) (r : Bool) (e x : PlayerEvent)
    (hfind : (sortEvents (mkEvents (rows))).find?
      (fun y => decide (y.match_index = k ∧ y.side1 = r)) = some e)
    (hx : x ∈ (sortEvents (mkEvents (rows))).takeWhile
      (fun y => ! decide (y.match_index = k ∧ y.side1 = r)))
    (hpl : x.player = e.player) :
    x.match_index < k + 1 := by
  have hekey : e.match_index = k ∧ e.side1 = r := by
    have := List.find?_some hfind
    simpa using this
  rw [find?_eq_head_dropWhile] at hfind
  set s := sortEvents (mkEvents (rows)) with hs
  set key := fun y : PlayerEvent => decide (y.match_index = k ∧ y.side1 = r)
    with hkey
  rcases hdw : s.dropWhile (fun x => ! key x) with - | ⟨a, tl⟩
  · rw [hdw] at hfind
    exact absurd hfind (by simp)
  · rw [hdw] at hfind
    have hae : a = e := by simpa using hfind
    subst hae
    have hsplit : s.takeWhile (fun x => ! key x) ++ (a :: tl) = s := by
      rw [← hdw]
      exact List.takeWhile_append_dropWhile _ _
    have hpw : s.Pairwise fun u v => eventLe u v = true :=
      pairwise_stableSort eventLe_total eventLe_trans _
    rw [← hsplit] at hpw
    have hle : eventLe x a = true :=
      ((List.pairwise_append.mp hpw).2.2) x hx a (by simp)
    have hxs : x ∈ s := by
      rw [← hsplit]
      exact List.mem_append_left _ hx
    have has : a ∈ s := by
      rw [← hsplit]
      exact List.mem_append_right _ (by simp)
    rcases mem_mkEvents (mem_stableSort.mp hxs) with ⟨rx, hrx, hxshape⟩
    rcases mem_mkEvents (mem_stableSort.mp has) with ⟨ra, hra, hashape⟩
    rcases (eventLe_iff x a).mp hle with hplt | ⟨-, hrest⟩
    · rw [hpl] at hplt
      exact absurd hplt (lt_irrefl _)
    rcases hrest with hdlt | ⟨-, hile⟩
    · by_contra hge
      have hgt : a.match_index < x.match_index := by
        have := hekey.1
        omega
      have : a.date ≤ x.date := by
        rw [event_date_eq hxshape, event_date_eq hashape]
        exact rows_date_mono hd hgt hra hrx
      omega
    · have := hekey.1
      omega

theorem rawAt_trunc (rows : List MatchRow)
    (hd : rows.Pairwise fun a b => a.tourney_date ≤ b.tourney_date)
    (k : ℕ) (r : Bool) (m : Metric) (W : ℕ) (e : PlayerEvent)
    (hf : (sortEvents (mkEvents (rows))).find?
      (fun y => decide (y.match_index = k ∧ y.side1 = r)) = some e) :
    rollingRawAt ((sortEvents (mkEvents (rows))).filter
        (fun y => decide (y.match_index < k + 1)))
      ((((sortEvents (mkEvents (rows))).filter
          (fun y => decide (y.match_index < k + 1))).takeWhile fun x =>
        ! decide (x.match_index = k ∧ x.side1 = r)).length) e m W =
    rollingRawAt (sortEvents (mkEvents (rows)))
      (((sortEvents (mkEvents (rows))).takeWhile fun x =>
        ! decide (x.match_index = k ∧ x.side1 = r)).length) e m W := by
  unfold rollingRawAt priorVals
  rw [take_takeWhile_length, take_takeWhile_length]
  rw [takeWhile_filter_comm
    (fun x => ! decide (x.match_index = k ∧ x.side1 = r))
    (fun y => decide (y.match_index < k + 1))
    (sortEvents (mkEvents (rows)))
    (by
      intro x _ hx
      have hkx : x.match_index = k ∧ x.side1 = r := by simpa using hx
      simp [hkx.1])]
  rw [filter_filter_of_imp
    (fun x => decide (x.player = e.player))
    (fun y => decide (y.match_index < k + 1))
    ((sortEvents (mkEvents (rows))).takeWhile fun x =>
      ! decide (x.match_index = k ∧ x.side1 = r))
    (by
      intro x hxmem hpl
      have hpl' : x.player = e.player := by simpa using hpl
      have := prior_q_of_same_player rows hd k r e x hf hxmem hpl'
      simpa using this)]

theorem find?_trunc (rows : List MatchRow) (k : ℕ) (r : Bool) :
    (((sortEvents (mkEvents (rows))).filter
        (fun y => decide (y.match_index < k + 1))).find?
      (fun y => decide (y.match_index = k ∧ y.side1 = r))) =
    ((sortEvents (mkEvents (rows))).find?
      (fun y => decide (y.match_index = k ∧ y.side1 = r))) := by
  refine find?_filter_of_key _ _ _ ?_
  intro x _ hx
  have hkx : x.match_index = k ∧ x.side1 = r := by simpa using hx
  simp [hkx.1]

theorem recentRaw_trunc (rows : List MatchRow)
    (hd : rows.Pairwise fun a b => a.tourney_date ≤ b.tourney_date)
    (k : ℕ) (r : Bool) (m : Metric) (W : ℕ) :
    recentRaw ((rows).take (k + 1)) r m W k =
      recentRaw (rows) r m W k := by
  rw [recentRaw_char, recentRaw_char, sortEvents_take, find?_trunc]
  rcases hf : (sortEvents (mkEvents (rows))).find?
      (fun y => decide (y.match_index = k ∧ y.side1 = r)) with - | e
  · rw [hf]
  · rw [hf]
    exact rawAt_trunc rows hd k r m W e hf

theorem recentFeature_trunc_won (rows : List MatchRow)
    (hd : rows.Pairwise fun a b => a.tourney_date ≤ b.tourney_date)
    (k : ℕ) (r : Bool) (W : ℕ) :
    recentFeature ((rows).take (k + 1)) r .won W k =
      recentFeature (rows) r .won W k := by
  rw [recentFeature_char, recentFeature_char, sortEvents_take, find?_trunc]
  rcases hf : (sortEvents (mkEvents (rows))).find?
      (fun y => decide (y.match_index = k ∧ y.side1 = r)) with - | e
  · rw [hf]
  · have hraw := rawAt_trunc rows hd k r .won W e hf
    rw [hf]
    simp only [hraw]

theorem recentFeature_trunc_of_raw (rows : List MatchRow)
    (hd : rows.Pairwise fun a b => a.tourney_date ≤ b.tourney_date)
    (k : ℕ) (r : Bool)
    (m : Metric) (W : ℕ) (h : recentRaw rows r m W k ≠ none) :
    recentFeature ((rows).take (k + 1)) r m W k =
      recentFeature (rows) r m W k ∧
    recentFeature (rows) r m W k = recentRaw (rows) r m W k := by
  rw [recentRaw_char] at h
  rcases hf : (sortEvents (mkEvents (rows))).find?
      (fun y => decide (y.match_index = k ∧ y.side1 = r)) with - | e
  · rw [hf] at h
    simp at h
  · rw [hf] at h
    rcases hv : rollingRawAt (sortEvents (mkEvents (rows)))
        (((sortEvents (mkEvents (rows))).takeWhile fun x =>
          ! decide (x.match_index = k ∧ x.side1 = r)).length) e m W
      with - | v
    · simp only [hv] at h
      simp at h
    · constructor
      · rw [recentFeature_char, recentFeature_char, sortEvents_take,
          find?_trunc]
        have hraw := rawAt_trunc rows hd k r m W e hf
        rw [hf]
        simp only [hraw, hv]
      · rw [recentFeature_char, recentRaw_char]
        rw [hf]
        simp only [hv]

/-- C1 counterexample: on a three-match dataset with non-decreasing
dates, deleting the chronologically last match and recomputing changes
the first match's recorded `p1_recent_games_won_avg_5` cell (the
cold-start fill is the population mean of the rolling column, which
depends on later matches), refuting the claim that every recorded
feature is computable from strictly earlier matches alone. -/
theorem C1_counterexample :
    leakDF.Pairwise (fun a b => a.tourney_date ≤ b.tourney_date) ∧
    add_features_recent leakDF true .games_won 5 0 = some (25 / 4) ∧
    add_features_recent (leakDF.take 2) true .games_won 5 0 = some 7 ∧
    add_features_recent leakDF true .games_won 5 0 ≠
      add_features_recent (leakDF.take 2) true .games_won 5 0 := by
  refine ⟨by decide, ?_, ?_, ?_⟩ <;>
    norm_num +decide [add_features_recent, recentFeature, featLookup,
      filledCol, fillCol, fillCell, rollingCol, rollingColAux, rollingRawAt,
      priorVals, sortEvents, stableSort, insertLe, eventLe, mkEvents, p1Event,
      p2Event, Metric.get, colMean, definedVals, List.filterMap_cons,
      List.filterMap_nil, leakDF, DEFAULT_WIN_PCT, List.enum, sortRows,
      sortRowsIdx, rowLe]

/-- C1 (amended): no-leakage relative to the realized sort order.  For
every admissible date-sorted frame `out` of the dataset (the unstable
single-column `sort_values` guarantees no more than `DateSorted`), the
features recorded at row k are computed from the frame's first k+1 rows
alone: the streaming triple of row k is reproduced by running the pass
on `out.take (k+1)`; that prefix is itself an admissible sorted frame
of the surviving matches, so the recomputation is a run of the program
on the truncated dataset; every rolling win-rate cell of row k is
unchanged by the truncation; and every rolling magnitude cell whose raw
trailing-window value is defined is unchanged and equals that raw mean.
Excluded are the cold-start magnitude fills (the population mean of the
whole rolling column, a dataset-wide fallback) and any replay whose
fresh quicksort permutes surviving same-date rows differently — the
guarantee is relative to the realized order, not to re-sorting. -/
theorem C1_no_leakage_amended (df out : List MatchRow) (k : ℕ) (r : Bool)
    (m : Metric) (W : ℕ) (hout : DateSorted df out) :
    (processAll out).1[k]? = (processAll (out.take (k + 1))).1[k]? ∧
    DateSorted (out.take (k + 1)) (out.take (k + 1)) ∧
    recentFeature (out.take (k + 1)) r .won W k =
      recentFeature out r .won W k ∧
    (recentRaw out r m W k ≠ none →
      recentFeature (out.take (k + 1)) r m W k =
        recentFeature out r m W k ∧
      recentFeature out r m W k = recentRaw out r m W k) := by
  refine ⟨?_, ⟨List.Perm.refl _,
      List.Pairwise.sublist (List.take_sublist _ _) hout.2⟩,
    recentFeature_trunc_won out hout.2 k r W,
    recentFeature_trunc_of_raw out hout.2 k r m W⟩
  rw [processAll, processAll, processAux_getElem?, processAux_getElem?]
  rw [List.getElem?_take_of_lt (Nat.lt_succ_self k), List.take_take,
    Nat.min_eq_left (Nat.le_succ k)]

theorem C1_witness :
    recentFeature (leakDF.take 2) true .games_won 5 1 =
      recentFeature leakDF true .games_won 5 1 ∧
    recentFeature leakDF true .games_won 5 1 =
      recentRaw leakDF true .games_won 5 1 :=
  (C1_no_leakage_amended leakDF leakDF 1 true .games_won 5
    ⟨List.Perm.refl _, by decide⟩).2.2.2 (by
    norm_num +decide [recentRaw, featLookup, rollingCol, rollingColAux,
      rollingRawAt, priorVals, sortEvents, stableSort, insertLe, eventLe,
      mkEvents, p1Event, p2Event, Metric.get, leakDF, List.enum])

theorem mem_of_takeWhile {p : α → Bool} {l : List α} {x : α}
    (h : x ∈ l.takeWhile p) : x ∈ l := by
  have hsplit := List.takeWhile_append_dropWhile p l
  rw [← hsplit]
  exact List.mem_append_left _ h

theorem pairKey_ne (a b p q : String) (h1 : a ≠ p) (h2 : b ≠ p) :
    pairKey a b ≠ pairKey p q := by
  rcases pairKey_cases a b with h | h <;> rcases pairKey_cases p q with h' | h' <;>
    rw [h, h'] <;> intro hc <;> simp only [Prod.mk.injEq] at hc
  · exact h1 hc.1
  · exact h2 hc.2
  · exact h2 hc.1
  · exact h1 hc.2

theorem stepRow_p1pct (st : StreamState) (row : MatchRow) :
    (stepRow st row).1.1 =
      get_surface_win_pct st.surf row.p1_name (surfaceOf row) := rfl

theorem stepRow_p2pct (st : StreamState) (row : MatchRow) :
    (stepRow st row).1.2.1 =
      get_surface_win_pct st.surf row.p2_name (surfaceOf row) := rfl

theorem stepRow_no_player (st : StreamState) (row : MatchRow) (p s q : String)
    (h1 : row.p1_name ≠ p) (h2 : row.p2_name ≠ p) :
    surfLookup (stepRow st row).2.surf (p, s) = surfLookup st.surf (p, s) ∧
    h2hLookup (stepRow st row).2.h2h (pairKey p q) =
      h2hLookup st.h2h (pairKey p q) := by
  have hne1 : (p, s) ≠ (row.p1_name, surfaceOf row) := fun hc =>
    h1 (congrArg Prod.fst hc).symm
  have hne2 : (p, s) ≠ (row.p2_name, surfaceOf row) := fun hc =>
    h2 (congrArg Prod.fst hc).symm
  constructor
  · show surfLookup (update_surface_history (update_surface_history st.surf
      row.p1_name (surfaceOf row) _) row.p2_name (surfaceOf row) _) (p, s) = _
    rw [surfLookup_update_ne _ _ _ _ _ hne2, surfLookup_update_ne _ _ _ _ _ hne1]
  · show h2hLookup (h2hBump st.h2h (pairKey row.p1_name row.p2_name) _)
      (pairKey p q) = _
    exact h2hLookup_bump_ne _ _ _ _
      (Ne.symm (pairKey_ne row.p1_name row.p2_name p q h1 h2))

theorem processAux_no_player (st : StreamState) (l : List MatchRow)
    (p s q : String)
    (hp : ∀ row ∈ l, row.p1_name ≠ p ∧ row.p2_name ≠ p) :
    surfLookup (processAux st l).2.surf (p, s) = surfLookup st.surf (p, s) ∧
    h2hLookup (processAux st l).2.h2h (pairKey p q) =
      h2hLookup st.h2h (pairKey p q) := by
  induction l generalizing st with
  | nil => exact ⟨rfl, rfl⟩
  | cons row rest ih =>
      have hrow := hp row (by simp)
      have hstep := stepRow_no_player st row p s q hrow.1 hrow.2
      have hrest := ih (stepRow st row).2 fun x hx => hp x (by simp [hx])
      refine ⟨?_, ?_⟩ <;> simp only [processAux]
      · rw [hrest.1, hstep.1]
      · rw [hrest.2, hstep.2]

theorem cold_event_found (df : List MatchRow) (k : ℕ) (r : Bool)
    (row : MatchRow) (hk : (sortRows df)[k]? = some row) :
    ∃ e, (sortEvents (mkEvents (sortRows df))).find?
        (fun y => decide (y.match_index = k ∧ y.side1 = r)) = some e ∧
      e.match_index = k ∧ e.side1 = r ∧
      e.player = (if r then row.p1_name else row.p2_name) := by
  have hmem : (if r then p1Event k row else p2Event k row) ∈
      mkEvents (sortRows df) := by
    have henum : (k, row) ∈ (sortRows df).enum :=
      List.mk_mem_enum_iff_getElem?.mpr hk
    unfold mkEvents
    cases r
    · refine List.mem_append_right _ ?_
      simpa using List.mem_map_of_mem (fun pr => p2Event pr.1 pr.2) henum
    · refine List.mem_append_left _ ?_
      simpa using List.mem_map_of_mem (fun pr => p1Event pr.1 pr.2) henum
  have hkey : (fun y : PlayerEvent =>
      decide (y.match_index = k ∧ y.side1 = r))
        (if r then p1Event k row else p2Event k row) = true := by
    cases r <;> simp [p1Event, p2Event]
  have hsome : ((sortEvents (mkEvents (sortRows df))).find?
      (fun y => decide (y.match_index = k ∧ y.side1 = r))).isSome :=
    List.find?_isSome.mpr
      ⟨_, mem_stableSort.mpr hmem, hkey⟩
  rcases Option.isSome_iff_exists.mp hsome with ⟨e, he⟩
  have hekey : e.match_index = k ∧ e.side1 = r := by
    have := List.find?_some he
    simpa using this
  have hes : e ∈ sortEvents (mkEvents (sortRows df)) :=
    List.mem_of_find?_eq_some he
  rcases mem_mkEvents (mem_stableSort.mp hes) with ⟨re, hre, heshape⟩
  rw [hekey.1, hk] at hre
  have hrow : row = re := by simpa using hre
  subst hrow
  refine ⟨e, he, hekey.1, hekey.2, ?_⟩
  rcases heshape with h | h
  · have hside : e.side1 = true := by rw [h]; rfl
    have hr : r = true := by rw [← hekey.2, hside]
    rw [hr, if_pos rfl, h]
    rfl
  · have hside : e.side1 = false := by rw [h]; rfl
    have hr : r = false := by rw [← hekey.2, hside]
    rw [hr]
    simp only [Bool.false_eq_true, if_false]
    rw [h]
    rfl

theorem cold_raw_none (df : List MatchRow) (k : ℕ) (r : Bool)
    (row : MatchRow) (p : String) (m : Metric) (W : ℕ)
    (hk : (sortRows df)[k]? = some row)
    (hner : row.p1_name ≠ row.p2_name)
    (hp : p = (if r then row.p1_name else row.p2_name))
    (hcold : ∀ j rowj, j < k → (sortRows df)[j]? = some rowj →
      rowj.p1_name ≠ p ∧ rowj.p2_name ≠ p) :
    recentRaw (sortRows df) r m W k = none := by
  rw [recentRaw_char]
  obtain ⟨e, hf, hek, hes, hepl⟩ := cold_event_found df k r row hk
  rw [hf]
  show rollingRawAt (sortEvents (mkEvents (sortRows df)))
    (((sortEvents (mkEvents (sortRows df))).takeWhile fun x =>
      ! decide (x.match_index = k ∧ x.side1 = r)).length) e m W = none
  unfold rollingRawAt priorVals
  rw [take_takeWhile_length]
  have hempty : (((sortEvents (mkEvents (sortRows df))).takeWhile fun x =>
      ! decide (x.match_index = k ∧ x.side1 = r)).filter fun x =>
        decide (x.player = e.player)) = [] := by
    rw [List.filter_eq_nil_iff]
    intro x hxmem
    simp only [decide_eq_true_eq]
    intro hpl
    have hlt := prior_q_of_same_player (sortRows df)
      (sortRows_dates_nondecr df) k r e x hf hxmem hpl
    have hxs : x ∈ sortEvents (mkEvents (sortRows df)) := mem_of_takeWhile hxmem
    rcases mem_mkEvents (mem_stableSort.mp hxs) with ⟨rx, hrx, hxshape⟩
    have hxplayer : x.player = p := by rw [hpl, hepl, hp]
    rcases Nat.lt_or_ge x.match_index k with hj | hj
    · have hnop := hcold x.match_index rx hj hrx
      rcases hxshape with h | h
      · refine hnop.1 ?_
        rw [← hxplayer, h]
        rfl
      · refine hnop.2 ?_
        rw [← hxplayer, h]
        rfl
    · have hxk : x.match_index = k := by omega
      rw [hxk, hk] at hrx
      have hrxrow : row = rx := by simpa using hrx
      subst hrxrow
      have hnkey := List.mem_takeWhile_imp hxmem
      have hnkey' : ¬ x.match_index = k ∨ ¬ x.side1 = r := by
        simpa using hnkey
      cases hrcase : r
      · -- r = false: e is the p2 event, p = row.p2_name
        rcases hxshape with h | h
        · -- x is the p1 event of row k: its player is row.p1_name = p, contra hner
          have hxp1 : x.player = row.p1_name := by rw [h]; rfl
          rw [hxp1] at hxplayer
          rw [hrcase] at hp
          simp only [Bool.false_eq_true, if_false] at hp
          exact hner (hxplayer.trans hp)
        · -- x is the p2 event of row k: x matches the key, contra takeWhile
          have hxside : x.side1 = false := by rw [h]; rfl
          rcases hnkey' with hbad | hbad
          · exact hbad hxk
          · exact hbad (by rw [hxside, hrcase])
      · -- r = true
        rcases hxshape with h | h
        · have hxside : x.side1 = true := by rw [h]; rfl
          rcases hnkey' with hbad | hbad
          · exact hbad hxk
          · exact hbad (by rw [hxside, hrcase])
        · have hxp2 : x.player = row.p2_name := by rw [h]; rfl
          rw [hxp2] at hxplayer
          rw [hrcase] at hp
          simp only [if_true] at hp
          exact hner (hxplayer.trans hp).symm
  rw [hempty]
  simp

theorem recentFeature_of_none (rows : List MatchRow) (r : Bool) (m : Metric)
    (W i : ℕ) (e : PlayerEvent)
    (hf : (sortEvents (mkEvents rows)).find?
      (fun y => decide (y.match_index = i ∧ y.side1 = r)) = some e)
    (hraw : recentRaw rows r m W i = none) :
    recentFeature rows r m W i =
      match m with
      | .won => some DEFAULT_WIN_PCT
      | _ => colMean (rollingCol (mkEvents rows) m W) := by
  rw [recentRaw_char] at hraw
  simp only [hf] at hraw
  rw [recentFeature_char]
  simp only [hf]
  rw [hraw]
  cases m <;> rfl

/-- C3: cold start — when no row strictly before row `k` of the
date-sorted frame mentions the role-`r` player `p` of row `k`, the
features recorded for that role at row `k` are: surface win pct
`DEFAULT_WIN_PCT = 0.5`, `h2h_diff = 0`, recent win rate
`DEFAULT_WIN_PCT` for every window, and, for each of the four magnitude
metrics, the population mean of that metric's rolling column over the
entire player-event population. -/
theorem C3_cold_start (df : List MatchRow) (k : ℕ) (r : Bool)
    (row : MatchRow) (p : String) (m : Metric) (W : ℕ)
    (hk : (sortRows df)[k]? = some row)
    (hner : row.p1_name ≠ row.p2_name)
    (hp : p = (if r then row.p1_name else row.p2_name))
    (hcold : ∀ j rowj, j < k → (sortRows df)[j]? = some rowj →
      rowj.p1_name ≠ p ∧ rowj.p2_name ≠ p) :
    ((add_features_stream df)[k]?.map fun f => if r then f.1 else f.2.1) =
      some DEFAULT_WIN_PCT ∧
    ((add_features_stream df)[k]?.map fun f => f.2.2) = some 0 ∧
    add_features_recent df r .won W k = some DEFAULT_WIN_PCT ∧
    (m ≠ .won → add_features_recent df r m W k =
      colMean (rollingCol (mkEvents (sortRows df)) m W)) := by
  have hnop : ∀ rowj ∈ (sortRows df).take k,
      rowj.p1_name ≠ p ∧ rowj.p2_name ≠ p := by
    intro rowj hmem
    rcases List.getElem_of_mem hmem with ⟨j, hj, hget⟩
    have hjk : j < k := lt_of_lt_of_le hj
      (by rw [List.length_take]; exact min_le_left _ _)
    refine hcold j rowj hjk ?_
    have hq : ((sortRows df).take k)[j]? = some rowj := by
      rw [List.getElem?_eq_getElem hj, hget]
    rwa [List.getElem?_take_of_lt hjk] at hq
  have hstate := processAux_no_player initState ((sortRows df).take k)
    p (surfaceOf row) (if r then row.p2_name else row.p1_name) hnop
  have hsurfnone : surfLookup
      (processAux initState ((sortRows df).take k)).2.surf
      (p, surfaceOf row) = none := hstate.1.trans rfl
  have hpct : get_surface_win_pct
      (processAux initState ((sortRows df).take k)).2.surf p (surfaceOf row) =
      DEFAULT_WIN_PCT := by
    by_cases hu : surfaceOf row = "Unknown"
    · rw [hu]; exact pct_unknown _ _
    · exact pct_absent _ _ _ hu hsurfnone
  have hh2hnone : h2hLookup
      (processAux initState ((sortRows df).take k)).2.h2h
      (pairKey row.p1_name row.p2_name) = none := by
    have hq := hstate.2
    cases r
    · have hp' : p = row.p2_name := by simpa using hp
      simp only [Bool.false_eq_true, if_false] at hq
      rw [pairKey_comm, ← hp']
      exact hq.trans rfl
    · have hp' : p = row.p1_name := by simpa using hp
      simp only [if_true] at hq
      rw [← hp']
      exact hq.trans rfl
  refine ⟨?_, ?_, ?_, ?_⟩
  · rw [add_features_stream, processAll, processAux_getElem?, hk]
    cases r
    · have hp' : p = row.p2_name := by simpa using hp
      show some ((stepRow (processAux initState
          ((sortRows df).take k)).2 row).1.2.1) = some DEFAULT_WIN_PCT
      rw [stepRow_p2pct, ← hp', hpct]
    · have hp' : p = row.p1_name := by simpa using hp
      show some ((stepRow (processAux initState
          ((sortRows df).take k)).2 row).1.1) = some DEFAULT_WIN_PCT
      rw [stepRow_p1pct, ← hp', hpct]
  · rw [add_features_stream, processAll, processAux_getElem?, hk]
    show some ((stepRow (processAux initState
        ((sortRows df).take k)).2 row).1.2.2) = some 0
    rw [stepRow_diff, hh2hnone]
  · obtain ⟨e, hf, -, -, -⟩ := cold_event_found df k r row hk
    have hraw := cold_raw_none df k r row p .won W hk hner hp hcold
    show recentFeature (sortRows df) r .won W k = some DEFAULT_WIN_PCT
    rw [recentFeature_of_none (sortRows df) r .won W k e hf hraw]
  · intro hm
    obtain ⟨e, hf, -, -, -⟩ := cold_event_found df k r row hk
    have hraw := cold_raw_none df k r row p m W hk hner hp hcold
    show recentFeature (sortRows df) r m W k =
      colMean (rollingCol (mkEvents (sortRows df)) m W)
    rw [recentFeature_of_none (sortRows df) r m W k e hf hraw]
    cases m
    · exact absurd rfl hm
    all_goals rfl

theorem C3_witness :
    ((add_features_stream leakDF)[0]?.map fun f =>
      if true = true then f.1 else f.2.1) = some DEFAULT_WIN_PCT ∧
    ((add_features_stream leakDF)[0]?.map fun f => f.2.2) = some 0 ∧
    add_features_recent leakDF true .won 5 0 = some DEFAULT_WIN_PCT ∧
    add_features_recent leakDF true .games_won 5 0 =
      colMean (rollingCol (mkEvents (sortRows leakDF)) .games_won 5) := by
  obtain ⟨h1, h2, h3, h4⟩ := C3_cold_start leakDF 0 true
    { tourney_date := 20230101, surface := some "Hard", p1_name := "A",
      p2_name := "B", target := 1,
      p1_games_won := 10, p1_games_lost := 4,
      p1_sets_won := 2, p1_sets_lost := 0,
      p2_games_won := 4, p2_games_lost := 10,
      p2_sets_won := 0, p2_sets_lost := 2 }
    "A" .games_won 5 (by decide) (by decide) (by decide)
    (fun j rowj hj _ => absurd hj (Nat.not_lt_zero j))
  exact ⟨h1, h2, h3, h4 (by decide)⟩

/-- C10: `add_features` does not mutate its input frame.  On the heap
model — where every frame-building expression allocates a fresh
reference and every `frame[col] = ...` statement writes in place to the
reference its variable currently holds — a call on a caller reference
`r0` below the allocation watermark leaves the object at `r0` exactly
as it was and returns a distinct, freshly allocated reference. -/
theorem C10_no_mutation (h0 : Heap) (r0 fresh : ℕ) (hfr : r0 < fresh) :
    (runAddFeatures h0 r0 fresh).1 r0 = h0 r0 ∧
    (runAddFeatures h0 r0 fresh).2 ≠ r0 := by
  have e0 : ¬ r0 = fresh := by omega
  have e1 : ¬ r0 = fresh + 1 := by omega
  have e2 : ¬ r0 = fresh + 2 := by omega
  have e3 : ¬ r0 = fresh + 3 := by omega
  have e4 : ¬ r0 = fresh + 4 := by omega
  have e5 : ¬ r0 = fresh + 5 := by omega
  have e6 : ¬ r0 = fresh + 6 := by omega
  have e7 : ¬ r0 = fresh + 7 := by omega
  have e8 : ¬ r0 = fresh + 8 := by omega
  have e9 : ¬ r0 = fresh + 9 := by omega
  have e10 : ¬ r0 = fresh + 10 := by omega
  have e11 : ¬ r0 = fresh + 11 := by omega
  have e12 : ¬ r0 = fresh + 12 := by omega
  have e13 : ¬ r0 = fresh + 13 := by omega
  have e14 : ¬ r0 = fresh + 14 := by omega
  have e15 : ¬ r0 = fresh + 15 := by omega
  constructor
  · simp [runAddFeatures, hset, e0, e1, e2, e3, e4, e5, e6, e7, e8, e9,
      e10, e11, e12, e13, e14, e15]
  · show fresh + 15 ≠ r0
    omega

theorem C10_witness :
    (0 : ℕ) < 1 ∧
    (runAddFeatures (fun _ => PdData.matches [] []) (0 : ℕ) (1 : ℕ)).1 ((0 : ℕ)) =
      PdData.matches [] [] ∧
    (runAddFeatures (fun _ => PdData.matches [] []) (0 : ℕ) (1 : ℕ)).2 ≠ ((0 : ℕ)) :=
  ⟨Nat.succ_pos 0,
    C10_no_mutation (fun _ => PdData.matches [] []) 0 1 (Nat.succ_pos 0)⟩
